import Mathlib

/-!
Shallow embedding of the solution-assembly pipeline of `plexos2duckdb`
(`src/lib.rs`): the in-memory catalog model, the post-parse derivations,
the data-table naming scheme, the binary-to-columnar row production, the
write planner, the parallel staging/merge protocol, and the ZIP XML
selection policy.  Rust `i64` values are modelled as `Int`, `u64`/`u128`
counters as `Nat` with explicit bounds where overflow is checked in the
source, strings as Lean `String` (byte-for-byte the same contents), and
binary files as `List Nat` of byte values.  An IEEE-754 double that the
code moves around untouched is represented by its 64-bit little-endian
bit pattern (a `Nat`), since `f64::from_le_bytes` is a bijection on bit
patterns and the pipeline performs no float arithmetic.
-/

namespace P2D

/-- Association-list model of `indexmap::IndexMap`: first-match lookup. -/
def imLookup {β : Type} (l : List (Int × β)) (k : Int) : Option β :=
  match l with
  | [] => none
  | (k', v) :: rest => if k = k' then some v else imLookup rest k

/-- `IndexMap::insert`: replace in place when the key exists, else push back. -/
def imInsert {β : Type} (k : Int) (v : β) : List (Int × β) → List (Int × β)
  | [] => [(k, v)]
  | (k', v') :: rest => if k = k' then (k, v) :: rest else (k', v') :: imInsert k v rest

/-- In-place update of the first entry with the given key (no-op when absent),
modelling `IndexMap::get_mut` followed by a field assignment. -/
def imModify {β : Type} (k : Int) (f : β → β) : List (Int × β) → List (Int × β)
  | [] => []
  | (k', v) :: rest => if k = k' then (k', f v) :: rest else (k', v) :: imModify k f rest

/-- `IndexMap::sort_keys`: stable sort of the entries by ascending key. -/
def imSortKeys {β : Type} (l : List (Int × β)) : List (Int × β) :=
  List.insertionSort (fun a b => a.1 ≤ b.1) l

/-- Lookup with default in a small scratch map (`HashMap::entry().or_insert`). -/
def alookupD (l : List (Int × Nat)) (k : Int) (d : Nat) : Nat :=
  match l with
  | [] => d
  | (k', v) :: rest => if k = k' then v else alookupD rest k d

/-- Store a value in a small scratch map, replacing any previous binding. -/
def aset (l : List (Int × Nat)) (k : Int) (v : Nat) : List (Int × Nat) :=
  match l with
  | [] => [(k, v)]
  | (k', v') :: rest => if k = k' then (k, v) :: rest else (k', v') :: aset rest k v

/-- `struct Key` (`src/lib.rs`): one time series handle; `is_summary` is the
parsed `period_type_id == 1`. -/
structure Key where
  key_id : Int
  phase_id : Int
  is_summary : Bool
  band_id : Int
  membership_id : Int
  model_id : Int
  property_id : Int
  sample_id : Int
  timeslice_id : Int
deriving DecidableEq

/-- `struct KeyIndex` (`src/lib.rs`): physical layout descriptor.  `length`
counts 8-byte doubles, `position` is a byte offset (both `u64` in Rust,
modelled as `Nat` with explicit bounds in the theorems). -/
structure KeyIndex where
  key_id : Int
  period_type_id : Int
  length : Nat
  position : Nat
  period_offset : Int
deriving DecidableEq

/-- `struct Membership` (`src/lib.rs`). -/
structure Membership where
  membership_id : Int
  parent_class_id : Int
  child_class_id : Int
  collection_id : Int
  parent_object_id : Int
  child_object_id : Int
  collection_idx : Nat
deriving DecidableEq

/-- `struct Collection` (`src/lib.rs`). -/
structure Collection where
  collection_id : Int
  name : String
  lang_id : Int
  complement_name : Option String
  parent_class_id : Int
  child_class_id : Int
  n_members : Nat
deriving DecidableEq

/-- `struct Class` (`src/lib.rs`). -/
structure Class where
  class_id : Int
  name : String
  state : Option Int
  lang_id : Int
  class_group_id : Int
deriving DecidableEq

/-- `struct Property` (`src/lib.rs`); `band_id` is the derived field,
initialised to `0` by `parse_property`. -/
structure Property where
  property_id : Int
  name : String
  summary_name : String
  lang_id : Int
  enum_id : Int
  is_multi_band : Bool
  is_period : Bool
  is_summary : Bool
  unit_id : Int
  summary_unit_id : Int
  collection_id : Int
  band_id : Int
deriving DecidableEq

/-- `struct Unit` (`src/lib.rs`). -/
structure UnitRec where
  id : Int
  value : String
  lang_id : Int
deriving DecidableEq

/-- `struct Object` (`src/lib.rs`); `showFlag` models the Rust field `show`
(a Lean keyword). -/
structure Object where
  object_id : Int
  name : String
  index : Int
  showFlag : Bool
  class_id : Int
  category_id : Int
  guid : Option String
deriving DecidableEq

/-- `Property::property_name` (`src/lib.rs:305`). -/
def propertyNameFn (p : Property) : String := p.name

/-- `Property::summary_name` (`src/lib.rs:309`): note that it consults the
property's own `is_summary` flag. -/
def summaryNameFn (p : Property) : String :=
  if p.is_summary then p.summary_name else p.name

/-- The slice of `SolutionDataset` that the time-series writer reads:
entity tables as ordered association lists and the opened BIN files as
byte lists keyed by `period_type_id`. -/
structure Dataset where
  key_index : List (Int × KeyIndex)
  key : List (Int × Key)
  membership : List (Int × Membership)
  collection : List (Int × Collection)
  property : List (Int × Property)
  unit : List (Int × UnitRec)
  class' : List (Int × Class)
  period_data : List (Int × List Nat)

/-- `SolutionDataset::phase_name` (`src/lib.rs:2913`). -/
def phaseName (phase_id : Int) : String :=
  if phase_id = 1 then "LT"
  else if phase_id = 2 then "PASA"
  else if phase_id = 3 then "MT"
  else if phase_id = 4 then "ST"
  else "Unknown"

/-- `SolutionDataset::period_name` (`src/lib.rs:2923`). -/
def periodName (period_id : Int) : String :=
  if period_id = 0 then "Interval"
  else if period_id = 1 then "Day"
  else if period_id = 2 then "Week"
  else if period_id = 3 then "Month"
  else if period_id = 4 then "Year"
  else if period_id = 6 then "Hour"
  else if period_id = 7 then "Quarter"
  else "Unknown"

/-- `.replace(" ", "_").replace("-", "_")` on single-character patterns:
two successive character maps. -/
def underscored (s : String) : String :=
  ⟨(s.data.map (fun c => if c = ' ' then '_' else c)).map (fun c => if c = '-' then '_' else c)⟩

/-- Failures of the per-`KeyIndex` naming lookups (`eyre!` errors in the
source, carrying the same identifying data). -/
inductive NameError where
  | keyNotFound (key_id : Int)
  | membershipNotFound (membership_id : Int)
  | collectionNotFound (collection_id : Int)
  | propertyNotFound (property_id : Int)
  | unitNotFound (unit_id : Int)
  | classNotFound (class_id : Int)
deriving DecidableEq

/-- The canonical data-table name computed for one `KeyIndex` by the loop
body of `update_table_key_indexes_mapping` (`src/lib.rs:1360-1383`).  The
unit lookup does not contribute to the name but can fail, exactly as in
the source. -/
def tableNameFor (ds : Dataset) (ki : KeyIndex) : Except NameError String :=
  match imLookup ds.key ki.key_id with
  | none => .error (.keyNotFound ki.key_id)
  | some key =>
    match imLookup ds.membership key.membership_id with
    | none => .error (.membershipNotFound key.membership_id)
    | some m =>
      match imLookup ds.collection m.collection_id with
      | none => .error (.collectionNotFound m.collection_id)
      | some coll =>
        match imLookup ds.property key.property_id with
        | none => .error (.propertyNotFound key.property_id)
        | some prop =>
          let property_name := if key.is_summary then summaryNameFn prop else propertyNameFn prop
          let unit_id := if prop.is_summary then prop.summary_unit_id else prop.unit_id
          match imLookup ds.unit unit_id with
          | none => .error (.unitNotFound unit_id)
          | some _ =>
            .ok (underscored
              (phaseName key.phase_id ++ "__" ++ periodName ki.period_type_id ++ "__"
                ++ coll.name ++ "__" ++ property_name))

/-- Modelled from the spec: the table-name formula the specification states,
with `collection_qualified_name = prefix ++ "_" ++ collection.name` where
the prefix is the complement name when present, else the parent class name
(this is `SolutionDataset::collection_name`, `src/lib.rs:2763`, which the
grouping derivation does not call).  Used to compare the spec's formula
against the code's. -/
def specTableNameFor (ds : Dataset) (ki : KeyIndex) : Except NameError String :=
  match imLookup ds.key ki.key_id with
  | none => .error (.keyNotFound ki.key_id)
  | some key =>
    match imLookup ds.membership key.membership_id with
    | none => .error (.membershipNotFound key.membership_id)
    | some m =>
      match imLookup ds.collection m.collection_id with
      | none => .error (.collectionNotFound m.collection_id)
      | some coll =>
        match imLookup ds.property key.property_id with
        | none => .error (.propertyNotFound key.property_id)
        | some prop =>
          let property_name := if key.is_summary then prop.summary_name else prop.name
          let pfx : Except NameError String :=
            match coll.complement_name with
            | some n => .ok n
            | none =>
              match imLookup ds.class' coll.parent_class_id with
              | none => .error (.classNotFound coll.parent_class_id)
              | some cls => .ok cls.name
          match pfx with
          | .error e => .error e
          | .ok p =>
            .ok (underscored
              (phaseName key.phase_id ++ "__" ++ periodName ki.period_type_id ++ "__"
                ++ p ++ "_" ++ coll.name ++ "__" ++ property_name))

/-- One appended row of a `data.*` table; `value` is the 64-bit
little-endian bit pattern of the appended double. -/
structure Row where
  key_id : Int
  sample_id : Int
  band_id : Int
  membership_id : Int
  block_id : Int
  value : Nat
deriving DecidableEq

/-- Failures of `append_single_data_table` (`src/lib.rs:1822-1900`), each
carrying the identifying data the source interpolates into its `eyre!`
diagnostic. -/
inductive DataError where
  | keyIndexNotFound (key_id : Int)
  | keyNotFound (key_id : Int)
  | periodTypeNotFound (period_type_id : Int)
  | misaligned (key_id : Int) (posBytes : Nat)
  | chunkSizeOverflow (key_id : Int)
  | byteOffsetOverflow (key_id : Int)
  | readFailed (key_id : Int) (offset : Nat)
  | blockIdExceedsI64 (key_id : Int)
  | blockIdOverflow (key_id : Int)
deriving DecidableEq

/-- Byte of a byte list at an index (out-of-range reads never happen on the
paths exercised by the source; `0` is a don't-care default). -/
def byteAt (bs : List Nat) (i : Nat) : Nat := (bs[i]?).getD 0

/-- `f64::from_le_bytes` on the eight bytes starting at `k`, as the 64-bit
word `b0 + 256*b1 + …` (the little-endian bit pattern). -/
def leWord8At (bs : List Nat) (k : Nat) : Nat :=
  byteAt bs k + 256 * (byteAt bs (k + 1) + 256 * (byteAt bs (k + 2) + 256 * (byteAt bs (k + 3)
    + 256 * (byteAt bs (k + 4) + 256 * (byteAt bs (k + 5) + 256 * (byteAt bs (k + 6)
      + 256 * byteAt bs (k + 7)))))))

/-- `read_exact_at` (`src/lib.rs:1937`): read exactly `len` bytes at
`offset`, failing on a short read. -/
def readExactAt (file : List Nat) (offset len : Nat) : Option (List Nat) :=
  if offset + len ≤ file.length then some ((file.drop offset).take len) else none

/-- The `block_id` computation (`src/lib.rs:1876-1880`): `i64::try_from`
of the `u64` index, then two checked `i64` additions. -/
def mkBlockId (kid : Int) (off : Int) (idx : Nat) : Except DataError Int :=
  if idx < 2 ^ 63 then
    let v : Int := (idx : Int) + off
    if -(2 ^ 63) ≤ v ∧ v < 2 ^ 63 then
      if -(2 ^ 63) ≤ v + 1 ∧ v + 1 < 2 ^ 63 then .ok (v + 1)
      else .error (.blockIdOverflow kid)
    else .error (.blockIdOverflow kid)
  else .error (.blockIdExceedsI64 kid)

/-- The inner per-chunk loop (`src/lib.rs:1861-1892`): `rem` values remain,
`chunkI` is the current index within the chunk, `i` the chunk's base index.
Returns the rows appended before any failure, with the failure if one
occurred. -/
def innerRows (kid : Int) (key : Key) (off : Int) (buf : List Nat) (i : Nat) :
    Nat → Nat → List Row × Option DataError
  | _, 0 => ([], none)
  | chunkI, rem + 1 =>
    let value := leWord8At buf (chunkI * 8)
    match mkBlockId kid off (i + chunkI) with
    | .error e => ([], some e)
    | .ok bid =>
      let row : Row := ⟨kid, key.sample_id, key.band_id, key.membership_id, bid, value⟩
      let rest := innerRows kid key off buf i (chunkI + 1) rem
      (row :: rest.1, rest.2)

/-- `DATA_READ_CHUNK_VALUES` (`src/lib.rs:1826`). -/
def dataReadChunkValues : Nat := 4096

/-- The outer chunked read loop (`src/lib.rs:1844-1895`) for one key:
checked size arithmetic, positional read, then the inner loop.  `fuel`
bounds the number of iterations: every iteration advances `i` by at least
one value, so with `fuel = len - i` (as `outerLoop` passes) the `0` case is
reached only once `i ≥ len`, where it returns the loop's exit value. -/
def outerLoopGo (kid : Int) (key : Key) (file : List Nat) (pos len : Nat) (off : Int) :
    Nat → Nat → List Row × Option DataError
  | 0, _ => ([], none)
  | fuel + 1, i =>
    if i < len then
      let chunkValues := min (len - i) dataReadChunkValues
      if chunkValues * 8 ≥ 2 ^ 64 then ([], some (.chunkSizeOverflow kid))
      else if i * 8 ≥ 2 ^ 64 then ([], some (.byteOffsetOverflow kid))
      else if pos + i * 8 ≥ 2 ^ 64 then ([], some (.byteOffsetOverflow kid))
      else
        match readExactAt file (pos + i * 8) (chunkValues * 8) with
        | none => ([], some (.readFailed kid (pos + i * 8)))
        | some buf =>
          let inner := innerRows kid key off buf i 0 chunkValues
          match inner.2 with
          | some e => (inner.1, some e)
          | none =>
            let rest := outerLoopGo kid key file pos len off fuel (i + chunkValues)
            (inner.1 ++ rest.1, rest.2)
    else ([], none)

/-- The chunked read loop entered at index `i` (`while i < ki.length`). -/
def outerLoop (kid : Int) (key : Key) (file : List Nat) (pos len : Nat) (off : Int)
    (i : Nat) : List Row × Option DataError :=
  outerLoopGo kid key file pos len off (len - i) i

/-- Row production for a single `key_id` of a plan (`src/lib.rs:1829-1896`):
the lookups, the alignment check, then the chunked read loop. -/
def appendKey (ds : Dataset) (kid : Int) : List Row × Option DataError :=
  match imLookup ds.key_index kid with
  | none => ([], some (.keyIndexNotFound kid))
  | some ki =>
    match imLookup ds.key kid with
    | none => ([], some (.keyNotFound kid))
    | some key =>
      match imLookup ds.period_data ki.period_type_id with
      | none => ([], some (.periodTypeNotFound ki.period_type_id))
      | some file =>
        if ki.position % 8 ≠ 0 then ([], some (.misaligned kid ki.position))
        else outerLoop kid key file ki.position ki.length ki.period_offset 0

/-- `struct DataTableWritePlan` (`src/lib.rs:389`); `estimated_values` is a
`u128`, modelled as `Nat` with bound 2^128 where the source checks it. -/
structure DataTableWritePlan where
  table_name : String
  key_ids : List Int
  estimated_values : Nat
deriving DecidableEq

/-- `append_single_data_table` (`src/lib.rs:1822`): rows appended for the
plan's keys in order, stopping at the first failure. -/
def appendSingleDataTable (ds : Dataset) (plan : DataTableWritePlan) :
    List Row × Option DataError :=
  go plan.key_ids
where
  go : List Int → List Row × Option DataError
  | [] => ([], none)
  | kid :: rest =>
    let kr := appendKey ds kid
    match kr.2 with
    | some e => (kr.1, some e)
    | none =>
      let more := go rest
      (kr.1 ++ more.1, more.2)

/-- Failures of `build_data_table_plans` (`src/lib.rs:1585-1610`). -/
inductive PlanError where
  | keyIndexNotFound (key_id : Int)
  | estimatedOverflow (table_name : String)
deriving DecidableEq

/-- One step of the workload estimate: `self.key_index(key_id)?` then
`u128::checked_add` (`src/lib.rs:1589-1593`). -/
def estStep (ds : Dataset) (table_name : String) (acc : Nat) (kid : Int) :
    Except PlanError Nat :=
  match imLookup ds.key_index kid with
  | none => .error (.keyIndexNotFound kid)
  | some ki =>
    if acc + ki.length < 2 ^ 128 then .ok (acc + ki.length)
    else .error (.estimatedOverflow table_name)

/-- The per-grouping workload estimate (`src/lib.rs:1588-1594`): a left
fold of `u128::checked_add` over the keys' lengths, failing on overflow. -/
def estimatedFor (ds : Dataset) (table_name : String) (key_ids : List Int) :
    Except PlanError Nat :=
  key_ids.foldlM (estStep ds table_name) 0

/-- The plan comparator of `src/lib.rs:1603-1608` as a ≤-style relation:
`planLE a b` holds when the comparator does not place `a` after `b`
(estimated work descending, then key count descending, then name
ascending). -/
def planLE (a b : DataTableWritePlan) : Prop :=
  b.estimated_values < a.estimated_values ∨
    (b.estimated_values = a.estimated_values ∧
      (b.key_ids.length < a.key_ids.length ∨
        (b.key_ids.length = a.key_ids.length ∧ a.table_name ≤ b.table_name)))

instance : DecidableRel planLE := fun a b => by unfold planLE; infer_instance

/-- The plan-building loop of `build_data_table_plans`
(`src/lib.rs:1586-1601`): one plan pushed per grouping, `?`-propagating the
first estimate failure. -/
def buildPlansRaw (ds : Dataset) : List (String × List Int) →
    Except PlanError (List DataTableWritePlan)
  | [] => .ok []
  | g :: rest =>
    match estimatedFor ds g.1 g.2 with
    | .error e => .error e
    | .ok est =>
      match buildPlansRaw ds rest with
      | .error e => .error e
      | .ok more => .ok (DataTableWritePlan.mk g.1 g.2 est :: more)

/-- `build_data_table_plans` (`src/lib.rs:1585`): one plan per grouping of
`table_key_index_mapping` (passed in as an association list, the iteration
order of the `HashMap` being arbitrary), then a total sort by the
comparator. -/
def build_data_table_plans (ds : Dataset) (mapping : List (String × List Int)) :
    Except PlanError (List DataTableWritePlan) :=
  (buildPlansRaw ds mapping).map (List.insertionSort planLE)

/-- `u128::saturating_add`. -/
def satAdd128 (a b : Nat) : Nat := min (a + b) (2 ^ 128 - 1)

/-- Modelled from the spec: the estimate as the spec words it, a
`Σ length(key)` computed with saturating `u128` arithmetic (lengths of
unresolvable keys contribute nothing; the code instead fails on them). -/
def saturatingEstimate (ds : Dataset) (key_ids : List Int) : Nat :=
  key_ids.foldl
    (fun acc kid =>
      match imLookup ds.key_index kid with
      | none => acc
      | some ki => satAdd128 acc ki.length)
    0

/-- Index of the first minimum of a load list (`Iterator::min_by_key`
returns the first of several equal minima). -/
def firstMinIdx : List Nat → Nat
  | [] => 0
  | x :: rest => if rest.all (fun y => x ≤ y) then 0 else firstMinIdx rest + 1

/-- One step of the longest-processing-time assignment
(`src/lib.rs:1771-1777`): append the plan to the least-loaded worker and
bump that worker's load with a saturating add. -/
def distStep (acc : List (List DataTableWritePlan) × List Nat) (p : DataTableWritePlan) :
    List (List DataTableWritePlan) × List Nat :=
  let j := firstMinIdx acc.2
  (acc.1.set j ((acc.1.getD j []) ++ [p]),
   acc.2.set j (satAdd128 (acc.2.getD j 0) p.estimated_values))

/-- `distribute_data_table_plans` (`src/lib.rs:1764`): fold the plans
through the LPT policy, then drop workers that received nothing. -/
def distribute_data_table_plans (plans : List DataTableWritePlan) (worker_count : Nat) :
    List (List DataTableWritePlan) :=
  ((plans.foldl distStep (List.replicate worker_count [], List.replicate worker_count 0)).1).filter
    (fun b => ¬ b.isEmpty)

/-- One worker's staging pass (`src/lib.rs:1679-1699`): its assigned tables
written sequentially with the row-production contract; also the body of the
sequential writer (`populate_table_data_sequential`).  Each entry is a
written `data.*` table: its name with its rows and outcome. -/
def runWorker (ds : Dataset) (plans : List DataTableWritePlan) :
    List (String × (List Row × Option DataError)) :=
  plans.map (fun p => (p.table_name, appendSingleDataTable ds p))

/-- The sequential (`W = 1`) time-series writing phase
(`populate_table_data_sequential`, `src/lib.rs:1627`). -/
def runSequential (ds : Dataset) (plans : List DataTableWritePlan) :
    List (String × (List Row × Option DataError)) :=
  runWorker ds plans

/-- `merge_staged_data_shards` (`src/lib.rs:1783`): every shard's `data.*`
tables are copied into the target catalog, shard by shard. -/
def merge_staged_data_shards (shards : List (List (String × (List Row × Option DataError)))) :
    List (String × (List Row × Option DataError)) :=
  shards.flatMap id

/-- The parallel time-series writing phase (`populate_table_data_parallel`,
`src/lib.rs:1655`): distribute the plans, run each worker against its own
staging shard, then merge all shards into the target. -/
def runParallel (ds : Dataset) (plans : List DataTableWritePlan) (worker_count : Nat) :
    List (String × (List Row × Option DataError)) :=
  merge_staged_data_shards ((distribute_data_table_plans plans worker_count).map (runWorker ds))

/-- The multiset of rows landing in a given `data.*` table of a written
catalog. -/
def rowsForTable (tables : List (String × (List Row × Option DataError))) (t : String) :
    List Row :=
  (tables.filter (fun e => e.1 = t)).flatMap (fun e => e.2.1)

/-- `update_property_band_id` (`src/lib.rs:1290`): for every key in table
order, raise its property's `band_id` to at least the key's. -/
def update_property_band_id (keys : List (Int × Key)) (props : List (Int × Property)) :
    List (Int × Property) :=
  keys.foldl
    (fun ps e => imModify e.2.property_id (fun p => { p with band_id := max p.band_id e.2.band_id }) ps)
    props

/-- The maximum the claim speaks of: `max { k.band_id : k.property_id = pid }`
over the key table (`none` when the property has no keys). -/
def keyBandMax (keys : List (Int × Key)) (pid : Int) : Option Int :=
  (((keys.map Prod.snd).filter (fun k => k.property_id = pid)).map Key.band_id).max?

/-- Second pass of `update_collection_membership_count`
(`src/lib.rs:1341-1351`): assign each membership its 0-based index within
its collection and write the per-collection total into the collection
record.  `counts` is the first pass's per-collection tally, `idxs` the
running `collection_indices` scratch map. -/
def ucmcGo (counts : Int → Nat) :
    List (Int × Membership) → List (Int × Collection) → List (Int × Nat) →
      List (Int × Membership) × List (Int × Collection)
  | [], cs, _ => ([], cs)
  | (mid, m) :: rest, cs, idxs =>
    let cid := m.collection_id
    let i := alookupD idxs cid 0
    let m' := { m with collection_idx := i }
    let idxs' := aset idxs cid (i + 1)
    let cs' := imModify cid (fun c => { c with n_members := counts cid }) cs
    let r := ucmcGo counts rest cs' idxs'
    ((mid, m') :: r.1, r.2)

/-- `update_collection_membership_count` (`src/lib.rs:1330`): tally
memberships per collection, then the linear assignment pass. -/
def update_collection_membership_count (ms : List (Int × Membership))
    (cs : List (Int × Collection)) :
    List (Int × Membership) × List (Int × Collection) :=
  ucmcGo (fun cid => ms.countP (fun e => e.2.collection_id = cid)) ms cs []

/-- `str::to_lowercase` on the ASCII names at hand, character by
character. -/
def lowerChars (s : List Char) : List Char := s.map Char.toLower

/-- Does `pat` occur as a contiguous substring of `l` (`str::contains`)? -/
def hasSub (l pat : List Char) : Bool :=
  pat.isPrefixOf l ||
    match l with
    | [] => false
    | _ :: t => hasSub t pat

/-- `Path::file_name`: the component after the last `/`. -/
def fileNameOf (s : List Char) : List Char :=
  (s.reverse.takeWhile (fun c => c ≠ '/')).reverse

/-- Index of the last `.` of a file name, if any. -/
def lastDotIdx (l : List Char) : Option Nat :=
  (l.reverse.findIdx? (fun c => c = '.')).map (fun k => l.length - 1 - k)

/-- `Path::file_stem`: the file name up to its last `.`, the whole name when
there is no `.` or when the only `.` is leading. -/
def fileStemOf (s : List Char) : Option (List Char) :=
  let fn := fileNameOf s
  if fn.isEmpty then none
  else
    match lastDotIdx fn with
    | none => some fn
    | some 0 => some fn
    | some k => some (fn.take k)

/-- Does the lowercased entry name end in `.xml`? -/
def isXmlName (name : List Char) : Bool :=
  ".xml".toList.isSuffixOf (lowerChars name)

/-- Keep an already-found index, else take the fallback (the
`if idx.is_none() { idx = Some(i) }` updates of the selection loop). -/
def keepOr (a b : Option Nat) : Option Nat :=
  match a with
  | some j => some j
  | none => b

/-- The XML-selection scan of `with_zip_file_impl` (`src/lib.rs:607-627`):
walk the entries carrying the running `model_name_xml_index` and
`first_xml_index`, breaking as soon as an entry's stem equals the archive
stem.  Returns `(preferred, model-name match, first .xml)` indices. -/
def scanXml (zipStem modelLower : List Char) :
    Nat → Option Nat → Option Nat → List (List Char) →
      Option Nat × Option Nat × Option Nat
  | _, mIdx, fIdx, [] => (none, mIdx, fIdx)
  | i, mIdx, fIdx, name :: rest =>
    if isXmlName name then
      match fileStemOf name with
      | some stem =>
        if stem = zipStem then (some i, mIdx, fIdx)
        else
          scanXml zipStem modelLower (i + 1)
            (keepOr mIdx (if hasSub (lowerChars stem) modelLower then some i else none))
            (keepOr fIdx (some i)) rest
      | none =>
        scanXml zipStem modelLower (i + 1) mIdx (keepOr fIdx (some i)) rest
    else scanXml zipStem modelLower (i + 1) mIdx fIdx rest

/-- The selection (`src/lib.rs:629-646`): preferred index silently, else the
model-name match, else the first `.xml`, the two fallbacks with a warning
on the error stream; `none` when the archive has no `.xml` entry (the
source then fails).  The `Bool` is `true` iff a warning was emitted. -/
def chooseXml (zipStem modelLower : List Char) (names : List (List Char)) :
    Option (Nat × Bool) :=
  match scanXml zipStem modelLower 0 none none names with
  | (some i, _, _) => some (i, false)
  | (none, some i, _) => some (i, true)
  | (none, none, some i) => some (i, true)
  | (none, none, none) => none

/-- Modelled from the spec: tier (a), the first entry whose stem equals the
archive stem. -/
def tier1 (zipStem : List Char) (names : List (List Char)) : Option Nat :=
  names.findIdx? (fun n => isXmlName n && (fileStemOf n == some zipStem))

/-- Modelled from the spec: tier (b), the first `.xml` entry whose
lowercased stem contains the lowercased model name. -/
def tier2 (modelLower : List Char) (names : List (List Char)) : Option Nat :=
  names.findIdx? (fun n =>
    isXmlName n &&
      (match fileStemOf n with
       | some stem => hasSub (lowerChars stem) modelLower
       | none => false))

/-- Modelled from the spec: tier (c), the first `.xml` entry. -/
def tier3 (names : List (List Char)) : Option Nat :=
  names.findIdx? (fun n => isXmlName n)

/-- Modelled from the spec: the three-tier policy of §6, with a warning
exactly in cases (b) and (c). -/
def chooseXmlSpec (zipStem modelLower : List Char) (names : List (List Char)) :
    Option (Nat × Bool) :=
  match tier1 zipStem names with
  | some i => some (i, false)
  | none =>
    match tier2 modelLower names with
    | some i => some (i, true)
    | none => (tier3 names).map (fun i => (i, true))

/-- `parse_object` (`src/lib.rs:807`) on rows whose fields already parsed
(the XML tree walk is out of the specified core): insert each row keyed by
its `object_id`, then `sort_keys`. -/
def parse_object (rows : List Object) : List (Int × Object) :=
  imSortKeys (rows.foldl (fun m o => imInsert o.object_id o m) [])

/-- The `t_key` row fields read by `parse_key` (`src/lib.rs:1000`). -/
structure KeyXml where
  key_id : Int
  membership_id : Int
  model_id : Int
  phase_id : Int
  property_id : Int
  period_type_id : Int
  band_id : Int
  sample_id : Int
  timeslice_id : Int
deriving DecidableEq

/-- The `Key` record `parse_key` builds from one row (`is_summary` is
`period_type_id == 1`). -/
def keyOfXml (r : KeyXml) : Key :=
  ⟨r.key_id, r.phase_id, r.period_type_id = 1, r.band_id, r.membership_id, r.model_id,
    r.property_id, r.sample_id, r.timeslice_id⟩

/-- `parse_key` (`src/lib.rs:1000`) on typed rows: insert each key keyed by
its `key_id`, then `sort_keys`. -/
def parse_key (rows : List KeyXml) : List (Int × Key) :=
  imSortKeys (rows.foldl (fun m r => imInsert r.key_id (keyOfXml r) m) [])

/-! Concrete fixtures used by counterexamples and witnesses.  `dsA` is the
spec's end-to-end scenario S1: one LT interval key `7` of two doubles
`1.5` and `2.5` (little-endian bytes) at position 0. -/

/-- Scenario-S1 dataset: key 7, collection `Generators` under parent class
`System` with no complement name, property `Gen Cap`. -/
def dsA : Dataset :=
  { key_index := [(7, ⟨7, 0, 2, 0, 0⟩)]
    key := [(7, ⟨7, 1, false, 1, 10, 1, 3, 1, 1⟩)]
    membership := [(10, ⟨10, 1, 2, 5, 100, 101, 0⟩)]
    collection := [(5, ⟨5, "Generators", 1, none, 1, 2, 0⟩)]
    property := [(3, ⟨3, "Gen Cap", "Gen Cap Sum", 1, 0, false, true, false, 20, 21, 5, 0⟩)]
    unit := [(20, ⟨20, "MW", 1⟩), (21, ⟨21, "MWh", 1⟩)]
    class' := [(1, ⟨1, "System", none, 1, 1⟩)]
    period_data := [(0, [0, 0, 0, 0, 0, 0, 248, 63, 0, 0, 0, 0, 0, 0, 4, 64])] }

/-- The S1 key index of `dsA`. -/
def kiA : KeyIndex := ⟨7, 0, 2, 0, 0⟩

/-- The S1 write plan over `dsA`. -/
def planA : DataTableWritePlan := ⟨"LT__Interval__Generators__Gen_Cap", [7], 2⟩

/-- Scenario-S6-style dataset for the summary-name rule: key 9 is a summary
key (`is_summary = true`) but its property has `is_summary = false` with
distinct `name` and `summary_name`. -/
def dsB : Dataset :=
  { key_index := [(9, ⟨9, 1, 0, 0, 0⟩)]
    key := [(9, ⟨9, 4, true, 1, 11, 1, 4, 1, 1⟩)]
    membership := [(11, ⟨11, 1, 2, 6, 100, 101, 0⟩)]
    collection := [(6, ⟨6, "Things", 1, none, 1, 2, 0⟩)]
    property := [(4, ⟨4, "Load", "Load Sum", 1, 0, false, true, false, 20, 21, 6, 0⟩)]
    unit := [(20, ⟨20, "MW", 1⟩), (21, ⟨21, "MWh", 1⟩)]
    class' := [(1, ⟨1, "System", none, 1, 1⟩)]
    period_data := [] }

/-- The key index of `dsB`. -/
def kiB : KeyIndex := ⟨9, 1, 0, 0, 0⟩

/-- Scenario-S2-style dataset: key 5 aligned at position 0, key 9 misaligned
at byte position 3. -/
def dsE : Dataset :=
  { key_index := [(5, ⟨5, 0, 1, 0, 0⟩), (9, ⟨9, 0, 1, 3, 0⟩)]
    key := [(5, ⟨5, 1, false, 1, 10, 1, 3, 1, 1⟩), (9, ⟨9, 1, false, 2, 10, 1, 3, 1, 1⟩)]
    membership := [(10, ⟨10, 1, 2, 5, 100, 101, 0⟩)]
    collection := [(5, ⟨5, "Generators", 1, none, 1, 2, 0⟩)]
    property := [(3, ⟨3, "Gen Cap", "Gen Cap Sum", 1, 0, false, true, false, 20, 21, 5, 0⟩)]
    unit := [(20, ⟨20, "MW", 1⟩)]
    class' := [(1, ⟨1, "System", none, 1, 1⟩)]
    period_data := [(0, [0, 0, 0, 0, 0, 0, 240, 63, 0, 0, 0, 0])] }

/-- The S2-style write plan over `dsE`: the aligned key first, then the
misaligned one. -/
def planE : DataTableWritePlan := ⟨"LT__Interval__Generators__Gen_Cap", [5, 9], 2⟩

/-- An empty second plan for the parallel-equivalence witness (S3: zero
keys, zero rows). -/
def planEmpty : DataTableWritePlan := ⟨"LT__Interval__Generators__Other", [], 0⟩

/-- Membership fixture: two memberships in collection 5, one in 6, none
in 7. -/
def msW : List (Int × Membership) :=
  [(1, ⟨1, 1, 2, 5, 100, 101, 0⟩), (2, ⟨2, 1, 2, 5, 100, 102, 0⟩), (3, ⟨3, 1, 2, 6, 100, 103, 0⟩)]

/-- Collection fixture matching `msW`, with parse-time `n_members = 0`. -/
def csW : List (Int × Collection) :=
  [(5, ⟨5, "C", 1, none, 1, 2, 0⟩), (6, ⟨6, "D", 1, none, 1, 2, 0⟩), (7, ⟨7, "E", 1, none, 1, 2, 0⟩)]

end P2D

namespace P2D

/-! ## Helper lemmas about the association-list model -/

theorem imLookup_imModify {β : Type} (k : Int) (f : β → β) (l : List (Int × β)) (k' : Int) :
    imLookup (imModify k f l) k' = if k' = k then (imLookup l k').map f else imLookup l k' := by
  induction l with
  | nil => simp [imModify, imLookup]
  | cons e rest ih =>
    obtain ⟨ek, ev⟩ := e
    by_cases hk : k = ek
    · subst hk
      by_cases hk' : k' = k
      · subst hk'; simp [imModify, imLookup]
      · simp [imModify, imLookup, hk']
    · by_cases hk' : k' = ek
      · subst hk'
        have : ¬ k' = k := fun h => hk (h ▸ rfl)
        simp [imModify, imLookup, hk, this]
      · simp [imModify, imLookup, hk, hk', ih]

theorem imLookup_imInsert {β : Type} (k : Int) (v : β) (l : List (Int × β)) (k' : Int) :
    imLookup (imInsert k v l) k' = if k' = k then some v else imLookup l k' := by
  induction l with
  | nil => simp [imInsert, imLookup]
  | cons e rest ih =>
    obtain ⟨ek, ev⟩ := e
    by_cases hk : k = ek
    · subst hk
      by_cases hk' : k' = k
      · subst hk'; simp [imInsert, imLookup]
      · simp [imInsert, imLookup, hk']
    · by_cases hk' : k' = ek
      · subst hk'
        have : ¬ k' = k := fun h => hk (h ▸ rfl)
        simp [imInsert, imLookup, hk, this]
      · simp [imInsert, imLookup, hk, hk', ih]

theorem imLookup_mem {β : Type} {l : List (Int × β)} {k : Int} {v : β}
    (h : imLookup l k = some v) : (k, v) ∈ l := by
  induction l with
  | nil => simp [imLookup] at h
  | cons e rest ih =>
    obtain ⟨ek, ev⟩ := e
    by_cases hk : k = ek
    · subst hk
      simp [imLookup] at h
      simp [h]
    · simp [imLookup, hk] at h
      exact List.mem_cons_of_mem _ (ih h)

/-! ## C1: the data-table naming scheme -/

/-- Claim C1 counterexample: the claim states that the canonical table name
built by the grouping derivation qualifies the collection name with a
prefix (`complement_name` or the parent-class name).  On the S1 dataset the
code produces `LT__Interval__Generators__Gen_Cap` — the bare
`collection.name` — while the claimed formula yields
`LT__Interval__System_Generators__Gen_Cap`; the two differ. -/
theorem claim_C1_counterexample :
    tableNameFor dsA kiA = .ok "LT__Interval__Generators__Gen_Cap" ∧
    specTableNameFor dsA kiA = .ok "LT__Interval__System_Generators__Gen_Cap" ∧
    "LT__Interval__Generators__Gen_Cap" ≠ "LT__Interval__System_Generators__Gen_Cap" :=
  ⟨rfl, rfl, by decide⟩

/-- Claim C1 (amended): for every `KeyIndex` whose lookups resolve, the
canonical table name is
`"{phase_name}__{period_name}__{collection.name}__{property_display_name}"`
with spaces and hyphens replaced by underscores — the collection name is
used unqualified, without the complement-name/parent-class prefix. -/
theorem claim_C1_amended (ds : Dataset) (ki : KeyIndex) (key : Key) (m : Membership)
    (coll : Collection) (prop : Property) (u : UnitRec)
    (hkey : imLookup ds.key ki.key_id = some key)
    (hm : imLookup ds.membership key.membership_id = some m)
    (hc : imLookup ds.collection m.collection_id = some coll)
    (hp : imLookup ds.property key.property_id = some prop)
    (hu : imLookup ds.unit (if prop.is_summary then prop.summary_unit_id else prop.unit_id)
            = some u) :
    tableNameFor ds ki =
      .ok (underscored
        (phaseName key.phase_id ++ "__" ++ periodName ki.period_type_id ++ "__"
          ++ coll.name ++ "__"
          ++ (if key.is_summary then summaryNameFn prop else propertyNameFn prop))) := by
  simp [tableNameFor, hkey, hm, hc, hp, hu]

/-- Witness for the amended C1 at the S1 fixture. -/
theorem claim_C1_witness :
    tableNameFor dsA kiA =
      .ok (underscored
        (phaseName 1 ++ "__" ++ periodName 0 ++ "__" ++ "Generators" ++ "__"
          ++ (if false then
                summaryNameFn ⟨3, "Gen Cap", "Gen Cap Sum", 1, 0, false, true, false, 20, 21, 5, 0⟩
              else
                propertyNameFn
                  ⟨3, "Gen Cap", "Gen Cap Sum", 1, 0, false, true, false, 20, 21, 5, 0⟩))) :=
  claim_C1_amended dsA kiA ⟨7, 1, false, 1, 10, 1, 3, 1, 1⟩ ⟨10, 1, 2, 5, 100, 101, 0⟩
    ⟨5, "Generators", 1, none, 1, 2, 0⟩ ⟨3, "Gen Cap", "Gen Cap Sum", 1, 0, false, true, false, 20, 21, 5, 0⟩
    ⟨20, "MW", 1⟩ rfl rfl rfl rfl rfl

/-! ## C3: the property display name -/

/-- Claim C3 counterexample: the claim states the display name equals
`property.summary_name` whenever `key.is_summary` is true, regardless of
the property's own `is_summary` flag.  On `dsB` the key is a summary key
but the property has `is_summary = false`, and the code names the table
with `property.name` (`Load`), not `property.summary_name` (`Load Sum`). -/
theorem claim_C3_counterexample :
    (imLookup dsB.key 9).map Key.is_summary = some true ∧
    (imLookup dsB.property 4).map Property.summary_name = some "Load Sum" ∧
    tableNameFor dsB kiB = .ok "ST__Day__Things__Load" ∧
    "ST__Day__Things__Load" ≠ underscored ("ST__Day__Things__" ++ "Load Sum") :=
  ⟨rfl, rfl, rfl, by decide⟩

/-- Claim C3 (amended): the property display name used in the canonical
table name is `property.summary_name` only when both `key.is_summary` and
`property.is_summary` hold; in every other case it is `property.name`
(`Property::summary_name` consults the property's own flag). -/
theorem claim_C3_amended (ds : Dataset) (ki : KeyIndex) (key : Key) (m : Membership)
    (coll : Collection) (prop : Property) (u : UnitRec)
    (hkey : imLookup ds.key ki.key_id = some key)
    (hm : imLookup ds.membership key.membership_id = some m)
    (hc : imLookup ds.collection m.collection_id = some coll)
    (hp : imLookup ds.property key.property_id = some prop)
    (hu : imLookup ds.unit (if prop.is_summary then prop.summary_unit_id else prop.unit_id)
            = some u) :
    tableNameFor ds ki =
      .ok (underscored
        (phaseName key.phase_id ++ "__" ++ periodName ki.period_type_id ++ "__"
          ++ coll.name ++ "__"
          ++ (if key.is_summary && prop.is_summary then prop.summary_name else prop.name))) := by
  have hd : (if key.is_summary then summaryNameFn prop else propertyNameFn prop)
      = (if key.is_summary && prop.is_summary then prop.summary_name else prop.name) := by
    cases hks : key.is_summary <;> cases hps : prop.is_summary <;>
      simp [summaryNameFn, propertyNameFn, hps]
  simp [tableNameFor, hkey, hm, hc, hp, hu, hd]

/-- Witness for the amended C3 at the `dsB` fixture: a summary key over a
non-summary property displays `prop.name`. -/
theorem claim_C3_witness :
    tableNameFor dsB kiB =
      .ok (underscored
        (phaseName 4 ++ "__" ++ periodName 1 ++ "__" ++ "Things" ++ "__"
          ++ (if true && false then "Load Sum" else "Load"))) :=
  claim_C3_amended dsB kiB ⟨9, 4, true, 1, 11, 1, 4, 1, 1⟩ ⟨11, 1, 2, 6, 100, 101, 0⟩
    ⟨6, "Things", 1, none, 1, 2, 0⟩ ⟨4, "Load", "Load Sum", 1, 0, false, true, false, 20, 21, 6, 0⟩
    ⟨20, "MW", 1⟩ rfl rfl rfl rfl rfl

/-! ## C6: the property band derivation -/

/-- Claim C6 counterexample: the claim states `property.band_id` ends up as
the maximum of its keys' `band_id`s even when all of those are negative.
With a single key of `band_id = -1`, the derivation leaves the property's
parse-time initial value `0`, not `-1`. -/
theorem claim_C6_counterexample :
    (imLookup
        (update_property_band_id [(1, ⟨1, 1, false, -1, 10, 1, 3, 1, 1⟩)]
          [(3, ⟨3, "p", "s", 1, 0, false, true, false, 20, 21, 5, 0⟩)])
        3).map Property.band_id = some 0 ∧
    keyBandMax [(1, ⟨1, 1, false, -1, 10, 1, 3, 1, 1⟩)] 3 = some (-1) ∧
    (0 : Int) ≠ -1 :=
  ⟨rfl, rfl, by decide⟩

/-- Claim C6 (amended): after the band derivation, every property's
`band_id` is the fold of `max` over its keys' `band_id`s **starting from
its parse-time initial value** (`0` after `parse_property`): properties
with no keys keep that initial value, and an all-negative key set is
clamped at it. -/
theorem claim_C6_amended (keys : List (Int × Key)) (props : List (Int × Property)) (pid : Int) :
    (imLookup (update_property_band_id keys props) pid).map Property.band_id =
      (imLookup props pid).map (fun p =>
        (((keys.map Prod.snd).filter (fun k => k.property_id = pid)).map Key.band_id).foldl
          max p.band_id) := by
  induction keys generalizing props with
  | nil => simp [update_property_band_id]
  | cons e rest ih =>
    obtain ⟨ek, k⟩ := e
    have step : update_property_band_id ((ek, k) :: rest) props =
        update_property_band_id rest
          (imModify k.property_id (fun p => { p with band_id := max p.band_id k.band_id }) props) := by
      simp [update_property_band_id]
    rw [step, ih]
    by_cases hpid : k.property_id = pid
    · subst hpid
      rw [imLookup_imModify]
      simp only [if_pos rfl]
      cases imLookup props k.property_id with
      | none => simp
      | some p => simp [List.foldl]
    · rw [imLookup_imModify]
      have : ¬ pid = k.property_id := fun h => hpid (h ▸ rfl)
      simp only [if_neg this]
      cases imLookup props pid with
      | none => simp
      | some p => simp [hpid]

/-! ## C7: membership counts and ordinals -/

theorem alookupD_aset (l : List (Int × Nat)) (k : Int) (v : Nat) (k' : Int) (d : Nat) :
    alookupD (aset l k v) k' d = if k' = k then v else alookupD l k' d := by
  induction l with
  | nil => simp [aset, alookupD]
  | cons e rest ih =>
    obtain ⟨ek, ev⟩ := e
    by_cases hk : k = ek
    · subst hk
      by_cases hk' : k' = k
      · subst hk'; simp [aset, alookupD]
      · simp [aset, alookupD, hk']
    · by_cases hk' : k' = ek
      · subst hk'
        have : ¬ k' = k := fun h => hk (h ▸ rfl)
        simp [aset, alookupD, hk, this]
      · simp [aset, alookupD, hk, hk', ih]

theorem ucmcGo_spec (counts : Int → Nat) (cid : Int) :
    ∀ (ms : List (Int × Membership)) (cs : List (Int × Collection)) (idxs : List (Int × Nat)),
      (((ucmcGo counts ms cs idxs).1.filter (fun e => e.2.collection_id = cid)).map
          (fun e => e.2.collection_idx) =
        List.range' (alookupD idxs cid 0) (ms.countP (fun e => e.2.collection_id = cid))) ∧
      imLookup (ucmcGo counts ms cs idxs).2 cid =
        (if ms.countP (fun e => e.2.collection_id = cid) = 0 then imLookup cs cid
         else (imLookup cs cid).map (fun c => { c with n_members := counts cid })) := by
  intro ms
  induction ms with
  | nil => intro cs idxs; simp [ucmcGo]
  | cons e rest ih =>
    intro cs idxs
    obtain ⟨mid, m⟩ := e
    have hstep : ucmcGo counts ((mid, m) :: rest) cs idxs =
        (((mid, { m with collection_idx := alookupD idxs m.collection_id 0 }) ::
            (ucmcGo counts rest
              (imModify m.collection_id (fun c => { c with n_members := counts m.collection_id }) cs)
              (aset idxs m.collection_id (alookupD idxs m.collection_id 0 + 1))).1),
          (ucmcGo counts rest
            (imModify m.collection_id (fun c => { c with n_members := counts m.collection_id }) cs)
            (aset idxs m.collection_id (alookupD idxs m.collection_id 0 + 1))).2) := by
      simp [ucmcGo]
    set cs' := imModify m.collection_id
      (fun c => { c with n_members := counts m.collection_id }) cs with hcs'
    set idxs' := aset idxs m.collection_id (alookupD idxs m.collection_id 0 + 1) with hidxs'
    obtain ⟨ih1, ih2⟩ := ih cs' idxs'
    by_cases hm : m.collection_id = cid
    · constructor
      · rw [hstep]
        have hfilter :
            (((mid, { m with collection_idx := alookupD idxs m.collection_id 0 }) ::
                (ucmcGo counts rest cs' idxs').1).filter
              (fun e => e.2.collection_id = cid)) =
            (mid, { m with collection_idx := alookupD idxs m.collection_id 0 }) ::
              ((ucmcGo counts rest cs' idxs').1.filter (fun e => e.2.collection_id = cid)) := by
          rw [List.filter_cons]
          simp [hm]
        rw [hfilter, List.map_cons, ih1]
        have hcount : ((mid, m) :: rest).countP (fun e => e.2.collection_id = cid) =
            rest.countP (fun e => e.2.collection_id = cid) + 1 := by
          rw [List.countP_cons]; simp [hm]
        have hidx : alookupD idxs' cid 0 = alookupD idxs m.collection_id 0 + 1 := by
          rw [hidxs', alookupD_aset]
          simp [hm]
        rw [hidx, hcount, hm]
        rfl
      · rw [hstep]
        simp only []
        rw [ih2]
        have hcs'cid : imLookup cs' cid =
            (imLookup cs cid).map (fun c => { c with n_members := counts cid }) := by
          rw [hcs', imLookup_imModify]
          simp [hm]
        have hcount : ((mid, m) :: rest).countP (fun e => e.2.collection_id = cid) =
            rest.countP (fun e => e.2.collection_id = cid) + 1 := by
          rw [List.countP_cons]; simp [hm]
        rw [hcount]
        rw [if_neg (Nat.succ_ne_zero _)]
        by_cases hz : rest.countP (fun e => e.2.collection_id = cid) = 0
        · rw [if_pos hz, hcs'cid]
        · rw [if_neg hz, hcs'cid]
          cases imLookup cs cid <;> simp
    · constructor
      · rw [hstep]
        have hfilter :
            (((mid, { m with collection_idx := alookupD idxs m.collection_id 0 }) ::
                (ucmcGo counts rest cs' idxs').1).filter
              (fun e => e.2.collection_id = cid)) =
            ((ucmcGo counts rest cs' idxs').1.filter (fun e => e.2.collection_id = cid)) := by
          rw [List.filter_cons]
          simp [hm]
        rw [hfilter, ih1]
        have hcount : ((mid, m) :: rest).countP (fun e => e.2.collection_id = cid) =
            rest.countP (fun e => e.2.collection_id = cid) := by
          rw [List.countP_cons]; simp [hm]
        have hidx : alookupD idxs' cid 0 = alookupD idxs cid 0 := by
          rw [hidxs', alookupD_aset]
          have : ¬ cid = m.collection_id := fun h => hm h.symm
          simp [this]
        rw [hidx, hcount]
      · rw [hstep]
        simp only []
        rw [ih2]
        have hcs'cid : imLookup cs' cid = imLookup cs cid := by
          rw [hcs', imLookup_imModify]
          have : ¬ cid = m.collection_id := fun h => hm h.symm
          simp [this]
        have hcount : ((mid, m) :: rest).countP (fun e => e.2.collection_id = cid) =
            rest.countP (fun e => e.2.collection_id = cid) := by
          rw [List.countP_cons]; simp [hm]
        rw [hcount, hcs'cid]

/-- Claim C7: after the membership derivation, for every collection found in
the result, `n_members` equals the number of memberships carrying its
`collection_id` (given the parse-time initial `n_members = 0`), and those
memberships carry `collection_idx` values exactly `0, …, n_members-1`
assigned in table order. -/
theorem claim_C7 (ms : List (Int × Membership)) (cs : List (Int × Collection))
    (h0 : ∀ e ∈ cs, (e.2 : Collection).n_members = 0) (cid : Int) (c' : Collection)
    (hl : imLookup (update_collection_membership_count ms cs).2 cid = some c') :
    c'.n_members = ms.countP (fun e => e.2.collection_id = cid) ∧
    ((update_collection_membership_count ms cs).1.filter
        (fun e => e.2.collection_id = cid)).map (fun e => e.2.collection_idx) =
      List.range (ms.countP (fun e => e.2.collection_id = cid)) := by
  obtain ⟨spec1, spec2⟩ :=
    ucmcGo_spec (fun c => ms.countP (fun e => e.2.collection_id = c)) cid ms cs []
  unfold update_collection_membership_count at hl ⊢
  constructor
  · rw [spec2] at hl
    by_cases hz : ms.countP (fun e => e.2.collection_id = cid) = 0
    · rw [if_pos hz] at hl
      have hmem := imLookup_mem hl
      have hzero := h0 _ hmem
      simp only [] at hzero
      rw [hz, hzero]
    · rw [if_neg hz] at hl
      cases hcs : imLookup cs cid with
      | none => rw [hcs] at hl; simp at hl
      | some c0 =>
        rw [hcs] at hl
        simp only [Option.map_some'] at hl
        have hc' := Option.some.inj hl
        rw [← hc']
  · rw [spec1]
    have h00 : alookupD ([] : List (Int × Nat)) cid 0 = 0 := rfl
    rw [h00, ← List.range_eq_range']

/-- Witness for C7 at the `msW`/`csW` fixture: collection 5 has two
memberships, ending with `n_members = 2` and ordinals `0, 1`. -/
theorem claim_C7_witness :
    (⟨5, "C", 1, none, 1, 2, 2⟩ : Collection).n_members =
        msW.countP (fun e => e.2.collection_id = 5) ∧
    ((update_collection_membership_count msW csW).1.filter
        (fun e => e.2.collection_id = 5)).map (fun e => e.2.collection_idx) =
      List.range (msW.countP (fun e => e.2.collection_id = 5)) :=
  claim_C7 msW csW (by decide) 5 ⟨5, "C", 1, none, 1, 2, 2⟩ rfl

/-! ## C10: primary-key ingest is last-write-wins -/

theorem foldl_imInsert_lookup {α β : Type} (kf : α → Int) (g : α → β) :
    ∀ (rows : List α) (m : List (Int × β)) (k : Int),
      imLookup (rows.foldl (fun acc o => imInsert (kf o) (g o) acc) m) k =
        match rows.reverse.find? (fun o => kf o = k) with
        | some o => some (g o)
        | none => imLookup m k := by
  intro rows
  induction rows with
  | nil => intro m k; simp
  | cons o rest ih =>
    intro m k
    have hfold : ((o :: rest).foldl (fun acc o => imInsert (kf o) (g o) acc) m) =
        (rest.foldl (fun acc o => imInsert (kf o) (g o) acc) (imInsert (kf o) (g o) m)) := rfl
    rw [hfold, ih]
    have hrev : (o :: rest).reverse = rest.reverse ++ [o] := by simp
    rw [hrev, List.find?_append]
    cases hf : rest.reverse.find? (fun o => kf o = k) with
    | some o' => rfl
    | none =>
      rw [imLookup_imInsert]
      by_cases hk : k = kf o
      · have hk' : kf o = k := hk.symm
        rw [if_pos hk, List.find?_cons, decide_eq_true hk']
        rfl
      · have hk' : ¬ (kf o = k) := fun h => hk h.symm
        rw [if_neg hk, List.find?_cons, decide_eq_false hk']
        rfl

theorem mem_keys_imInsert {β : Type} (k a : Int) (v : β) (l : List (Int × β)) :
    a ∈ (imInsert k v l).map Prod.fst ↔ a = k ∨ a ∈ l.map Prod.fst := by
  induction l with
  | nil => simp [imInsert]
  | cons e rest ih =>
    obtain ⟨ek, ev⟩ := e
    by_cases hk : k = ek
    · subst hk
      simp only [imInsert, eq_self_iff_true, if_true, List.map_cons, List.mem_cons]
      tauto
    · simp only [imInsert, if_neg hk, List.map_cons, List.mem_cons, ih]
      tauto

theorem imInsert_keysNodup {β : Type} (k : Int) (v : β) (l : List (Int × β))
    (h : (l.map Prod.fst).Nodup) : ((imInsert k v l).map Prod.fst).Nodup := by
  induction l with
  | nil => simp [imInsert]
  | cons e rest ih =>
    obtain ⟨ek, ev⟩ := e
    simp only [List.map_cons, List.nodup_cons] at h
    by_cases hk : k = ek
    · subst hk
      have hins : imInsert k v ((k, ev) :: rest) = (k, v) :: rest := by simp [imInsert]
      rw [hins]
      simp only [List.map_cons, List.nodup_cons]
      exact h
    · simp only [imInsert, if_neg hk, List.map_cons, List.nodup_cons]
      constructor
      · rw [mem_keys_imInsert]
        rintro (h' | h')
        · exact hk (h'.symm ▸ rfl)
        · exact h.1 h'
      · exact ih h.2

theorem foldl_imInsert_keysNodup {α β : Type} (kf : α → Int) (g : α → β) :
    ∀ (rows : List α) (m : List (Int × β)), (m.map Prod.fst).Nodup →
      ((rows.foldl (fun acc o => imInsert (kf o) (g o) acc) m).map Prod.fst).Nodup := by
  intro rows
  induction rows with
  | nil => intro m h; exact h
  | cons o rest ih =>
    intro m h
    exact ih _ (imInsert_keysNodup _ _ _ h)

theorem imLookup_eq_of_perm {β : Type} :
    ∀ {l₁ l₂ : List (Int × β)}, l₁.Perm l₂ → (l₁.map Prod.fst).Nodup →
      ∀ k, imLookup l₁ k = imLookup l₂ k := by
  intro l₁ l₂ h
  induction h with
  | nil => intro _ _; rfl
  | cons x h ih =>
    intro hn k
    obtain ⟨xk, xv⟩ := x
    simp only [List.map_cons, List.nodup_cons] at hn
    by_cases hk : k = xk
    · simp [imLookup, hk]
    · simp only [imLookup, if_neg hk]
      exact ih hn.2 k
  | swap x y l =>
    intro hn k
    obtain ⟨xk, xv⟩ := x
    obtain ⟨yk, yv⟩ := y
    simp only [List.map_cons, List.nodup_cons, List.mem_cons] at hn
    by_cases hky : k = yk
    · have hxy : ¬ k = xk := fun h => hn.1 (Or.inl (hky.symm.trans h))
      simp only [imLookup]
      rw [if_pos hky, if_neg hxy, if_pos hky]
    · by_cases hkx : k = xk
      · simp only [imLookup]
        rw [if_neg hky, if_pos hkx, if_pos hkx]
      · simp only [imLookup]
        rw [if_neg hky, if_neg hkx, if_neg hkx, if_neg hky]
  | trans h₁ h₂ ih₁ ih₂ =>
    intro hn k
    rw [ih₁ hn k]
    exact ih₂ (((h₁.map Prod.fst).nodup_iff).mp hn) k

theorem imSortKeys_perm {β : Type} (l : List (Int × β)) : (imSortKeys l).Perm l :=
  List.perm_insertionSort _ l

theorem imSortKeys_keysNodup {β : Type} (l : List (Int × β))
    (h : (l.map Prod.fst).Nodup) : ((imSortKeys l).map Prod.fst).Nodup :=
  (((imSortKeys_perm l).map Prod.fst).nodup_iff).mpr h

theorem imLookup_imSortKeys {β : Type} (l : List (Int × β))
    (h : (l.map Prod.fst).Nodup) (k : Int) : imLookup (imSortKeys l) k = imLookup l k :=
  imLookup_eq_of_perm (imSortKeys_perm l) (imSortKeys_keysNodup l h) k

/-- Claim C10: ingest keyed by a primary id never fails on duplicate ids
and is last-write-wins: after `parse_object` / `parse_key` (both total on
typed rows), the table's keys are unique and looking a primary id up
returns exactly the record of the last row with that id in document
order. -/
theorem claim_C10 (objRows : List Object) (keyRows : List KeyXml) (oid kid : Int) :
    ((parse_object objRows).map Prod.fst).Nodup ∧
    imLookup (parse_object objRows) oid =
      objRows.reverse.find? (fun o => o.object_id = oid) ∧
    ((parse_key keyRows).map Prod.fst).Nodup ∧
    imLookup (parse_key keyRows) kid =
      (keyRows.reverse.find? (fun r => r.key_id = kid)).map keyOfXml := by
  have hnObj : (((objRows.foldl (fun m o => imInsert o.object_id o m) [])).map Prod.fst).Nodup :=
    foldl_imInsert_keysNodup Object.object_id (fun o => o) objRows [] (by simp)
  have hnKey :
      (((keyRows.foldl (fun m r => imInsert r.key_id (keyOfXml r) m) [])).map Prod.fst).Nodup :=
    foldl_imInsert_keysNodup KeyXml.key_id keyOfXml keyRows [] (by simp)
  refine ⟨?_, ?_, ?_, ?_⟩
  · exact imSortKeys_keysNodup _ hnObj
  · rw [parse_object, imLookup_imSortKeys _ hnObj,
      foldl_imInsert_lookup Object.object_id (fun o => o) objRows [] oid]
    cases objRows.reverse.find? (fun o => o.object_id = oid) <;> simp [imLookup]
  · exact imSortKeys_keysNodup _ hnKey
  · rw [parse_key, imLookup_imSortKeys _ hnKey,
      foldl_imInsert_lookup KeyXml.key_id keyOfXml keyRows [] kid]
    cases keyRows.reverse.find? (fun r => r.key_id = kid) <;> simp [imLookup]

/-! ## C8: ZIP XML selection policy -/

theorem keepOr_some (j : Nat) (b : Option Nat) : keepOr (some j) b = some j := rfl

theorem keepOr_none (b : Option Nat) : keepOr none b = b := rfl

theorem scanXml_fst (zs ml : List Char) :
    ∀ (names : List (List Char)) (i : Nat) (m f : Option Nat),
      (scanXml zs ml i m f names).1 =
        names.findIdx? (fun n => isXmlName n && (fileStemOf n == some zs)) i := by
  intro names
  induction names with
  | nil => intro i m f; rfl
  | cons name rest ih =>
    intro i m f
    rw [List.findIdx?_cons]
    by_cases hx : isXmlName name
    · cases hstem : fileStemOf name with
      | some stem =>
        by_cases hzs : stem = zs
        · subst hzs
          rw [if_pos (by simp [hx])]
          simp [scanXml, hx, hstem]
        · rw [if_neg (by simp [hx, hzs])]
          rw [show (scanXml zs ml i m f (name :: rest)) =
              scanXml zs ml (i + 1)
                (keepOr m (if hasSub (lowerChars stem) ml then some i else none))
                (keepOr f (some i)) rest from by
            simp [scanXml, hx, hstem, hzs]]
          rw [ih]
      | none =>
        rw [if_neg (by simp)]
        rw [show (scanXml zs ml i m f (name :: rest)) =
            scanXml zs ml (i + 1) m (keepOr f (some i)) rest from by
          simp [scanXml, hx, hstem]]
        rw [ih]
    · rw [if_neg (by simp [hx])]
      rw [show (scanXml zs ml i m f (name :: rest)) = scanXml zs ml (i + 1) m f rest from by
        simp [scanXml, hx]]
      rw [ih]

theorem scanXml_snd (zs ml : List Char) :
    ∀ (names : List (List Char)) (i : Nat) (m f : Option Nat),
      names.findIdx? (fun n => isXmlName n && (fileStemOf n == some zs)) i = none →
      (scanXml zs ml i m f names).2.1 =
        keepOr m
          (names.findIdx?
            (fun n => isXmlName n &&
              (match fileStemOf n with
               | some stem => hasSub (lowerChars stem) ml
               | none => false)) i) ∧
      (scanXml zs ml i m f names).2.2 =
        keepOr f (names.findIdx? (fun n => isXmlName n) i) := by
  intro names
  induction names with
  | nil =>
    intro i m f _
    constructor
    · cases m <;> rfl
    · cases f <;> rfl
  | cons name rest ih =>
    intro i m f h1
    rw [List.findIdx?_cons] at h1
    by_cases hx : isXmlName name
    · cases hstem : fileStemOf name with
      | some stem =>
        by_cases hzs : stem = zs
        · subst hzs
          rw [if_pos (by simp [hx, hstem])] at h1
          exact absurd h1 (by simp)
        · rw [hstem, if_neg (by simp [hx, hzs])] at h1
          have hstep : (scanXml zs ml i m f (name :: rest)) =
              scanXml zs ml (i + 1)
                (keepOr m (if hasSub (lowerChars stem) ml then some i else none))
                (keepOr f (some i)) rest := by
            simp [scanXml, hx, hstem, hzs]
          obtain ⟨ihm, ihf⟩ := ih (i + 1)
            (keepOr m (if hasSub (lowerChars stem) ml then some i else none))
            (keepOr f (some i)) h1
          constructor
          · rw [hstep, ihm, List.findIdx?_cons, hstem]
            cases m with
            | some j => rfl
            | none =>
              by_cases hsub : hasSub (lowerChars stem) ml
              · simp [keepOr, hsub, hx]
              · simp [keepOr, hsub, hx]
          · rw [hstep, ihf, List.findIdx?_cons]
            cases f with
            | some j => rfl
            | none => rw [if_pos hx]; rfl
      | none =>
        rw [hstem, if_neg (by simp)] at h1
        have hstep : (scanXml zs ml i m f (name :: rest)) =
            scanXml zs ml (i + 1) m (keepOr f (some i)) rest := by
          simp [scanXml, hx, hstem]
        obtain ⟨ihm, ihf⟩ := ih (i + 1) m (keepOr f (some i)) h1
        constructor
        · rw [hstep, ihm, List.findIdx?_cons, hstem]
          cases m with
          | some j => rfl
          | none =>
            rw [if_neg (by simp)]
        · rw [hstep, ihf, List.findIdx?_cons]
          cases f with
          | some j => rfl
          | none => rw [if_pos hx]; rfl
    · rw [if_neg (by simp [hx])] at h1
      have hstep : (scanXml zs ml i m f (name :: rest)) = scanXml zs ml (i + 1) m f rest := by
        simp [scanXml, hx]
      obtain ⟨ihm, ihf⟩ := ih (i + 1) m f h1
      constructor
      · rw [hstep, ihm, List.findIdx?_cons]
        cases m with
        | some j => rfl
        | none =>
          rw [if_neg (by simp [hx])]
      · rw [hstep, ihf, List.findIdx?_cons]
        cases f with
        | some j => rfl
        | none => rw [if_neg (by simp [hx])]

/-- Claim C8: the XML-selection loop of `with_zip_file_impl` implements the
spec's three-tier policy — the stem-equal entry silently; else the first
entry whose lowercased stem contains the lowercased model name, with a
warning; else the first `.xml` entry, with a warning; `none` exactly when
the archive holds no `.xml` entry. -/
theorem claim_C8 (zipStem modelLower : List Char) (names : List (List Char)) :
    chooseXml zipStem modelLower names = chooseXmlSpec zipStem modelLower names := by
  unfold chooseXml chooseXmlSpec tier1 tier2 tier3
  have hfst := scanXml_fst zipStem modelLower names 0 none none
  cases h1 : names.findIdx? (fun n => isXmlName n && (fileStemOf n == some zipStem)) with
  | some j =>
    rw [h1] at hfst
    rcases hs : scanXml zipStem modelLower 0 none none names with ⟨a, b, c⟩
    rw [hs] at hfst
    simp only [] at hfst
    rw [hfst]
  | none =>
    rw [h1] at hfst
    obtain ⟨hm, hf⟩ := scanXml_snd zipStem modelLower names 0 none none h1
    rcases hs : scanXml zipStem modelLower 0 none none names with ⟨a, b, c⟩
    rw [hs] at hfst hm hf
    simp only [keepOr_none] at hm hf
    simp only [] at hfst hm hf
    rw [hfst, hm, hf]
    cases names.findIdx?
        (fun n => isXmlName n &&
          (match fileStemOf n with
           | some stem => hasSub (lowerChars stem) modelLower
           | none => false)) with
    | some j => rfl
    | none =>
      cases names.findIdx? (fun n => isXmlName n) with
      | some j => rfl
      | none => rfl

/-! ## C4: the write planner -/

instance : IsTotal DataTableWritePlan planLE := ⟨by
  intro a b
  unfold planLE
  rcases Nat.lt_trichotomy a.estimated_values b.estimated_values with h | h | h
  · right; left; exact h
  · rcases Nat.lt_trichotomy a.key_ids.length b.key_ids.length with h2 | h2 | h2
    · right; right; exact ⟨h, Or.inl h2⟩
    · rcases le_total a.table_name b.table_name with h3 | h3
      · left; right; exact ⟨h.symm, Or.inr ⟨h2.symm, h3⟩⟩
      · right; right; exact ⟨h, Or.inr ⟨h2, h3⟩⟩
    · left; right; exact ⟨h.symm, Or.inl h2⟩
  · left; left; exact h⟩

instance : IsTrans DataTableWritePlan planLE := ⟨by
  intro a b c hab hbc
  unfold planLE at hab hbc ⊢
  rcases hab with h1 | ⟨h1, h1'⟩
  · rcases hbc with h2 | ⟨h2, h2'⟩
    · left; omega
    · left; omega
  · rcases hbc with h2 | ⟨h2, h2'⟩
    · left; omega
    · right
      refine ⟨by omega, ?_⟩
      rcases h1' with h3 | ⟨h3, h3'⟩
      · rcases h2' with h4 | ⟨h4, h4'⟩
        · left; omega
        · left; omega
      · rcases h2' with h4 | ⟨h4, h4'⟩
        · left; omega
        · right; exact ⟨by omega, le_trans h3' h4'⟩⟩

/-- Per-key length as read from the key-index table (`0` only a don't-care
default: the theorems assume the lookup succeeds). -/
def lenOf (ds : Dataset) (kid : Int) : Nat :=
  ((imLookup ds.key_index kid).map KeyIndex.length).getD 0

theorem estFold_ok (ds : Dataset) (tn : String) :
    ∀ (kids : List Int) (acc : Nat),
      (∀ kid ∈ kids, (imLookup ds.key_index kid).isSome) →
      acc + (kids.map (lenOf ds)).sum < 2 ^ 128 →
      kids.foldlM (estStep ds tn) acc = .ok (acc + (kids.map (lenOf ds)).sum) := by
  intro kids
  induction kids with
  | nil => intro acc _ _; rfl
  | cons kid rest ih =>
    intro acc hres hbound
    cases hki : imLookup ds.key_index kid with
    | none =>
      have := hres kid (List.mem_cons_self kid rest)
      rw [hki] at this
      simp at this
    | some ki =>
      have hlen : lenOf ds kid = ki.length := by simp [lenOf, hki]
      have hsum : ((kid :: rest).map (lenOf ds)).sum =
          ki.length + (rest.map (lenOf ds)).sum := by
        simp [hlen]
      have hcond : acc + ki.length < 2 ^ 128 := by rw [hsum] at hbound; omega
      have hstep : estStep ds tn acc kid = .ok (acc + ki.length) := by
        simp only [estStep, hki]
        rw [if_pos hcond]
      have hrec := ih (acc + ki.length)
        (fun k hk => hres k (List.mem_cons_of_mem _ hk))
        (by rw [hsum] at hbound; omega)
      calc (kid :: rest).foldlM (estStep ds tn) acc
          = (estStep ds tn acc kid) >>= (fun b => rest.foldlM (estStep ds tn) b) := by
            simp [List.foldlM_cons]
        _ = rest.foldlM (estStep ds tn) (acc + ki.length) := by rw [hstep]; rfl
        _ = .ok (acc + ki.length + (rest.map (lenOf ds)).sum) := hrec
        _ = .ok (acc + ((kid :: rest).map (lenOf ds)).sum) := by rw [hsum, Nat.add_assoc]

theorem satFold_eq (ds : Dataset) :
    ∀ (kids : List Int) (acc : Nat),
      acc + (kids.map (lenOf ds)).sum < 2 ^ 128 →
      kids.foldl
          (fun acc kid =>
            match imLookup ds.key_index kid with
            | none => acc
            | some ki => satAdd128 acc ki.length)
          acc = acc + (kids.map (lenOf ds)).sum := by
  intro kids
  induction kids with
  | nil => intro acc _; simp
  | cons kid rest ih =>
    intro acc hbound
    cases hki : imLookup ds.key_index kid with
    | none =>
      have hlen : lenOf ds kid = 0 := by simp [lenOf, hki]
      have hsum : ((kid :: rest).map (lenOf ds)).sum = (rest.map (lenOf ds)).sum := by
        simp [hlen]
      rw [List.foldl_cons, hki]
      rw [hsum] at hbound ⊢
      exact ih acc hbound
    | some ki =>
      have hlen : lenOf ds kid = ki.length := by simp [lenOf, hki]
      have hsum : ((kid :: rest).map (lenOf ds)).sum =
          ki.length + (rest.map (lenOf ds)).sum := by simp [hlen]
      have hsat : satAdd128 acc ki.length = acc + ki.length := by
        unfold satAdd128
        rw [hsum] at hbound
        omega
      rw [List.foldl_cons]
      simp only [hki, hsat]
      have := ih (acc + ki.length) (by rw [hsum] at hbound; omega)
      rw [this, hsum]
      omega

theorem sum_lens_bound (ds : Dataset) (kids : List Int)
    (hnd : kids.Nodup)
    (hrange : ∀ kid ∈ kids, -(2 ^ 63) ≤ kid ∧ kid < 2 ^ 63)
    (hlen : ∀ kid ∈ kids, lenOf ds kid < 2 ^ 64) :
    (kids.map (lenOf ds)).sum < 2 ^ 128 := by
  have hcard : kids.length ≤ 2 ^ 64 := by
    have h1 : kids.toFinset.card = kids.length := List.toFinset_card_of_nodup hnd
    have h2 : kids.toFinset ⊆ Finset.Icc (-(2 ^ 63) : ℤ) (2 ^ 63 - 1) := by
      intro x hx
      have := hrange x (List.mem_toFinset.mp hx)
      rw [Finset.mem_Icc]
      omega
    have h3 := Finset.card_le_card h2
    rw [h1, Int.card_Icc] at h3
    norm_num at h3
    omega
  have hsum : (kids.map (lenOf ds)).sum ≤ (kids.map (lenOf ds)).length • (2 ^ 64 - 1) := by
    refine List.sum_le_card_nsmul _ _ ?_
    intro x hx
    obtain ⟨kid, hkid, rfl⟩ := List.mem_map.mp hx
    have := hlen kid hkid
    omega
  rw [List.length_map, smul_eq_mul] at hsum
  have : kids.length * (2 ^ 64 - 1) ≤ 2 ^ 64 * (2 ^ 64 - 1) :=
    Nat.mul_le_mul_right _ hcard
  calc (kids.map (lenOf ds)).sum ≤ kids.length * (2 ^ 64 - 1) := hsum
    _ ≤ 2 ^ 64 * (2 ^ 64 - 1) := this
    _ < 2 ^ 128 := by norm_num

theorem buildPlansRaw_ok (ds : Dataset) :
    ∀ (mapping : List (String × List Int)),
      (∀ g ∈ mapping, estimatedFor ds g.1 g.2 = .ok (saturatingEstimate ds g.2)) →
      buildPlansRaw ds mapping =
        .ok (mapping.map (fun g => DataTableWritePlan.mk g.1 g.2 (saturatingEstimate ds g.2))) := by
  intro mapping
  induction mapping with
  | nil => intro _; rfl
  | cons g rest ih =>
    intro h
    have hg := h g (List.mem_cons_self g rest)
    have hrest := ih (fun g' hg' => h g' (List.mem_cons_of_mem _ hg'))
    unfold buildPlansRaw
    rw [hg, hrest]
    rfl

/-- Claim C4: one plan per grouping with estimate `Σ length(key)` — equal to
the spec's saturating-`u128` sum on every state the program can reach
(distinct `i64` key ids with `u64` lengths keep the checked sum below
`2^128`, so planning cannot fail on a large sum) — and the plan list is
sorted by estimated work descending, ties by key count then table name. -/
theorem claim_C4 (ds : Dataset) (mapping : List (String × List Int))
    (hres : ∀ g ∈ mapping, ∀ kid ∈ g.2, (imLookup ds.key_index kid).isSome)
    (hlen : ∀ g ∈ mapping, ∀ kid ∈ g.2, lenOf ds kid < 2 ^ 64)
    (hnd : ∀ g ∈ mapping, g.2.Nodup)
    (hrange : ∀ g ∈ mapping, ∀ kid ∈ g.2, -(2 ^ 63) ≤ kid ∧ kid < 2 ^ 63) :
    ∃ plans, build_data_table_plans ds mapping = .ok plans ∧
      (plans.map (fun p => (p.table_name, p.key_ids))).Perm mapping ∧
      (∀ g ∈ mapping, DataTableWritePlan.mk g.1 g.2 (saturatingEstimate ds g.2) ∈ plans) ∧
      plans.Pairwise planLE := by
  have hbound : ∀ g ∈ mapping, (g.2.map (lenOf ds)).sum < 2 ^ 128 := fun g hg =>
    sum_lens_bound ds g.2 (hnd g hg) (hrange g hg) (hlen g hg)
  have hest : ∀ g ∈ mapping, estimatedFor ds g.1 g.2 = .ok (saturatingEstimate ds g.2) := by
    intro g hg
    have h1 : estimatedFor ds g.1 g.2 = .ok ((g.2.map (lenOf ds)).sum) := by
      unfold estimatedFor
      have := estFold_ok ds g.1 g.2 0 (hres g hg) (by have := hbound g hg; omega)
      simpa using this
    have h2 : saturatingEstimate ds g.2 = (g.2.map (lenOf ds)).sum := by
      unfold saturatingEstimate
      have := satFold_eq ds g.2 0 (by have := hbound g hg; omega)
      simpa using this
    rw [h1, h2]
  have hraw := buildPlansRaw_ok ds mapping hest
  refine ⟨List.insertionSort planLE
      (mapping.map (fun g => DataTableWritePlan.mk g.1 g.2 (saturatingEstimate ds g.2))), ?_, ?_, ?_, ?_⟩
  · unfold build_data_table_plans
    rw [hraw]
    rfl
  · have hperm : (List.insertionSort planLE
        (mapping.map (fun g => DataTableWritePlan.mk g.1 g.2 (saturatingEstimate ds g.2)))).Perm
        (mapping.map (fun g => DataTableWritePlan.mk g.1 g.2 (saturatingEstimate ds g.2))) :=
      List.perm_insertionSort _ _
    have hmap := hperm.map (fun p => (p.table_name, p.key_ids))
    rw [List.map_map] at hmap
    rw [show ((fun p : DataTableWritePlan => (p.table_name, p.key_ids)) ∘
        (fun g : String × List Int =>
          DataTableWritePlan.mk g.1 g.2 (saturatingEstimate ds g.2))) = id from rfl] at hmap
    rw [List.map_id] at hmap
    exact hmap
  · intro g hg
    rw [List.mem_insertionSort]
    exact List.mem_map.mpr ⟨g, hg, rfl⟩
  · exact List.sorted_insertionSort planLE _

/-- Witness for C4: two groupings over `dsA` (key 7 alone, and an empty
one); planning succeeds with the saturating estimates and a sorted plan
list. -/
theorem claim_C4_witness :
    ∃ plans, build_data_table_plans dsA [("a", [7]), ("b", [])] = .ok plans ∧
      (plans.map (fun p => (p.table_name, p.key_ids))).Perm [("a", [7]), ("b", [])] ∧
      (∀ g ∈ [(("a" : String), [(7 : Int)]), ("b", [])],
        DataTableWritePlan.mk g.1 g.2 (saturatingEstimate dsA g.2) ∈ plans) ∧
      plans.Pairwise planLE :=
  claim_C4 dsA [("a", [7]), ("b", [])] (by decide) (by decide) (by decide) (by decide)

/-! ## C2 and C5: row production -/

theorem mkBlockId_ok {kid off : Int} {idx : Nat} {bid : Int}
    (h : mkBlockId kid off idx = .ok bid) : bid = (idx : Int) + off + 1 := by
  unfold mkBlockId at h
  by_cases h1 : idx < 2 ^ 63
  · rw [if_pos h1] at h
    by_cases h2 : -(2 ^ 63) ≤ (idx : Int) + off ∧ (idx : Int) + off < 2 ^ 63
    · rw [if_pos h2] at h
      by_cases h3 : -(2 ^ 63) ≤ (idx : Int) + off + 1 ∧ (idx : Int) + off + 1 < 2 ^ 63
      · rw [if_pos h3] at h
        exact (Except.ok.inj h).symm
      · rw [if_neg h3] at h
        exact absurd h (by simp)
    · rw [if_neg h2] at h
      exact absurd h (by simp)
  · rw [if_neg h1] at h
    exact absurd h (by simp)

theorem innerRows_spec (kid : Int) (key : Key) (off : Int) (buf : List Nat) (i : Nat) :
    ∀ (rem chunkI : Nat), (innerRows kid key off buf i chunkI rem).2 = none →
      (innerRows kid key off buf i chunkI rem).1 =
        (List.range' chunkI rem).map (fun j =>
          ⟨kid, key.sample_id, key.band_id, key.membership_id,
            ((i + j : Nat) : Int) + off + 1, leWord8At buf (j * 8)⟩) := by
  intro rem
  induction rem with
  | zero => intro chunkI _; rfl
  | succ rem ih =>
    intro chunkI hok
    cases hb : mkBlockId kid off (i + chunkI) with
    | error e =>
      exfalso
      have : (innerRows kid key off buf i chunkI (rem + 1)).2 = some e := by
        simp [innerRows, hb]
      rw [this] at hok
      exact Option.noConfusion hok
    | ok bid =>
      have hstep : innerRows kid key off buf i chunkI (rem + 1) =
          ((⟨kid, key.sample_id, key.band_id, key.membership_id, bid,
              leWord8At buf (chunkI * 8)⟩ : Row) ::
            (innerRows kid key off buf i (chunkI + 1) rem).1,
           (innerRows kid key off buf i (chunkI + 1) rem).2) := by
        simp [innerRows, hb]
      rw [hstep] at hok ⊢
      simp only [] at hok
      rw [show List.range' chunkI (rem + 1) = chunkI :: List.range' (chunkI + 1) rem from rfl,
        List.map_cons]
      rw [ih (chunkI + 1) hok]
      rw [mkBlockId_ok hb]

theorem innerRows_keys (kid : Int) (key : Key) (off : Int) (buf : List Nat) (i : Nat) :
    ∀ (rem chunkI : Nat) (r : Row), r ∈ (innerRows kid key off buf i chunkI rem).1 →
      r.key_id = kid := by
  intro rem
  induction rem with
  | zero => intro chunkI r hr; exact absurd hr (by simp [innerRows])
  | succ rem ih =>
    intro chunkI r hr
    cases hb : mkBlockId kid off (i + chunkI) with
    | error e =>
      rw [show (innerRows kid key off buf i chunkI (rem + 1)).1 = [] from by
        simp [innerRows, hb]] at hr
      exact absurd hr (by simp)
    | ok bid =>
      rw [show (innerRows kid key off buf i chunkI (rem + 1)).1 =
          (⟨kid, key.sample_id, key.band_id, key.membership_id, bid,
              leWord8At buf (chunkI * 8)⟩ : Row) ::
            (innerRows kid key off buf i (chunkI + 1) rem).1 from by
        simp [innerRows, hb]] at hr
      rcases List.mem_cons.mp hr with h | h
      · rw [h]
      · exact ih (chunkI + 1) r h

theorem byteAt_slice (l : List Nat) (a n k : Nat) (h : k < n) :
    byteAt ((l.drop a).take n) k = byteAt l (a + k) := by
  unfold byteAt
  rw [List.getElem?_take_of_lt h, List.getElem?_drop]

theorem leWord8At_slice (l : List Nat) (a n k : Nat) (h : k + 8 ≤ n) :
    leWord8At ((l.drop a).take n) k = leWord8At l (a + k) := by
  unfold leWord8At
  rw [byteAt_slice l a n k (by omega), byteAt_slice l a n (k + 1) (by omega),
    byteAt_slice l a n (k + 2) (by omega), byteAt_slice l a n (k + 3) (by omega),
    byteAt_slice l a n (k + 4) (by omega), byteAt_slice l a n (k + 5) (by omega),
    byteAt_slice l a n (k + 6) (by omega), byteAt_slice l a n (k + 7) (by omega)]
  rw [show a + (k + 1) = a + k + 1 from by omega, show a + (k + 2) = a + k + 2 from by omega,
    show a + (k + 3) = a + k + 3 from by omega, show a + (k + 4) = a + k + 4 from by omega,
    show a + (k + 5) = a + k + 5 from by omega, show a + (k + 6) = a + k + 6 from by omega,
    show a + (k + 7) = a + k + 7 from by omega]

theorem readExactAt_ok {file : List Nat} {off len : Nat} {buf : List Nat}
    (h : readExactAt file off len = some buf) :
    buf = (file.drop off).take len := by
  unfold readExactAt at h
  by_cases hle : off + len ≤ file.length
  · rw [if_pos hle] at h
    exact (Option.some.inj h).symm
  · rw [if_neg hle] at h
    exact absurd h (by simp)

theorem outerLoopGo_spec (kid : Int) (key : Key) (file : List Nat) (pos len : Nat)
    (off : Int) :
    ∀ (fuel i : Nat), len - i ≤ fuel →
      (outerLoopGo kid key file pos len off fuel i).2 = none →
      (outerLoopGo kid key file pos len off fuel i).1 =
        (List.range' i (len - i)).map (fun idx =>
          ⟨kid, key.sample_id, key.band_id, key.membership_id, (idx : Int) + off + 1,
            leWord8At file (pos + idx * 8)⟩) := by
  intro fuel
  induction fuel with
  | zero =>
    intro i hf _
    rw [show len - i = 0 from by omega]
    rfl
  | succ fuel ih =>
    intro i hf hok
    by_cases hi : i < len
    · set cv := min (len - i) dataReadChunkValues with hcv
      have hcv1 : 1 ≤ cv := by
        rw [hcv]; unfold dataReadChunkValues; omega
      by_cases g1 : cv * 8 ≥ 2 ^ 64
      · exfalso
        rw [show (outerLoopGo kid key file pos len off (fuel + 1) i).2 =
            some (.chunkSizeOverflow kid) from by
          simp only [outerLoopGo]; rw [← hcv]; rw [if_pos hi, if_pos g1]] at hok
        exact Option.noConfusion hok
      · by_cases g2 : i * 8 ≥ 2 ^ 64
        · exfalso
          rw [show (outerLoopGo kid key file pos len off (fuel + 1) i).2 =
              some (.byteOffsetOverflow kid) from by
            simp only [outerLoopGo]; rw [← hcv]
            rw [if_pos hi, if_neg g1, if_pos g2]] at hok
          exact Option.noConfusion hok
        · by_cases g3 : pos + i * 8 ≥ 2 ^ 64
          · exfalso
            rw [show (outerLoopGo kid key file pos len off (fuel + 1) i).2 =
                some (.byteOffsetOverflow kid) from by
              simp only [outerLoopGo]; rw [← hcv]
              rw [if_pos hi, if_neg g1, if_neg g2, if_pos g3]] at hok
            exact Option.noConfusion hok
          · cases hread : readExactAt file (pos + i * 8) (cv * 8) with
            | none =>
              exfalso
              rw [show (outerLoopGo kid key file pos len off (fuel + 1) i).2 =
                  some (.readFailed kid (pos + i * 8)) from by
                simp only [outerLoopGo]; rw [← hcv]
                rw [if_pos hi, if_neg g1, if_neg g2, if_neg g3, hread]] at hok
              exact Option.noConfusion hok
            | some buf =>
              cases hinner : (innerRows kid key off buf i 0 cv).2 with
              | some e =>
                exfalso
                rw [show (outerLoopGo kid key file pos len off (fuel + 1) i).2 = some e from by
                  simp only [outerLoopGo]; rw [← hcv]
                  rw [if_pos hi, if_neg g1, if_neg g2, if_neg g3, hread]
                  simp only [hinner]] at hok
                exact Option.noConfusion hok
              | none =>
                have hstep : outerLoopGo kid key file pos len off (fuel + 1) i =
                    ((innerRows kid key off buf i 0 cv).1 ++
                        (outerLoopGo kid key file pos len off fuel (i + cv)).1,
                      (outerLoopGo kid key file pos len off fuel (i + cv)).2) := by
                  simp only [outerLoopGo]; rw [← hcv]
                  rw [if_pos hi, if_neg g1, if_neg g2, if_neg g3, hread]
                  simp only [hinner]
                rw [hstep] at hok ⊢
                simp only [] at hok
                have hbuf : buf = (file.drop (pos + i * 8)).take (cv * 8) :=
                  readExactAt_ok hread
                have hrest := ih (i + cv) (by omega) hok
                rw [hrest, innerRows_spec kid key off buf i cv 0 hinner]
                have hmapinner :
                    (List.range' 0 cv).map (fun (j : Nat) =>
                      (⟨kid, key.sample_id, key.band_id, key.membership_id,
                        ((i + j : Nat) : Int) + off + 1, leWord8At buf (j * 8)⟩ : Row)) =
                    (List.range' i cv).map (fun (idx : Nat) =>
                      (⟨kid, key.sample_id, key.band_id, key.membership_id,
                        (idx : Int) + off + 1, leWord8At file (pos + idx * 8)⟩ : Row)) := by
                  have h1 :
                      (List.range' 0 cv).map (fun (j : Nat) =>
                        (⟨kid, key.sample_id, key.band_id, key.membership_id,
                          ((i + j : Nat) : Int) + off + 1, leWord8At buf (j * 8)⟩ : Row)) =
                      (List.range' 0 cv).map (fun (j : Nat) =>
                        (⟨kid, key.sample_id, key.band_id, key.membership_id,
                          ((i + j : Nat) : Int) + off + 1,
                          leWord8At file (pos + (i + j) * 8)⟩ : Row)) := by
                    refine List.map_congr_left ?_
                    intro j hj
                    have hjcv : j < cv := by
                      have := (List.mem_range'_1).mp hj
                      omega
                    have hb : leWord8At buf (j * 8) = leWord8At file (pos + (i + j) * 8) := by
                      rw [hbuf, leWord8At_slice file (pos + i * 8) (cv * 8) (j * 8) (by omega)]
                      rw [show pos + i * 8 + j * 8 = pos + (i + j) * 8 from by omega]
                    rw [hb]
                  have h2 : (List.range' i cv).map (fun (idx : Nat) =>
                      (⟨kid, key.sample_id, key.band_id, key.membership_id,
                        (idx : Int) + off + 1, leWord8At file (pos + idx * 8)⟩ : Row)) =
                      (List.range' 0 cv).map (fun (j : Nat) =>
                        (⟨kid, key.sample_id, key.band_id, key.membership_id,
                          ((i + j : Nat) : Int) + off + 1,
                          leWord8At file (pos + (i + j) * 8)⟩ : Row)) := by
                    rw [List.range'_eq_map_range i cv,
                      show List.range' 0 cv = List.range cv from (List.range_eq_range' cv).symm,
                      List.map_map]
                    rfl
                  rw [h1, h2]
                rw [hmapinner]
                rw [← List.map_append]
                rw [show List.range' i cv ++ List.range' (i + cv) (len - (i + cv)) =
                    List.range' i (len - i) from by
                  have := List.range'_append i cv (len - (i + cv)) 1
                  rw [show i + 1 * cv = i + cv from by omega] at this
                  rw [show len - (i + cv) + cv = len - i from by omega] at this
                  exact this]
    · rw [show outerLoopGo kid key file pos len off (fuel + 1) i = ([], none) from by
        simp only [outerLoopGo]; rw [if_neg hi]]
      rw [show len - i = 0 from by omega]
      rfl

theorem outerLoop_spec (kid : Int) (key : Key) (file : List Nat) (pos len : Nat) (off : Int)
    (i : Nat) (hok : (outerLoop kid key file pos len off i).2 = none) :
    (outerLoop kid key file pos len off i).1 =
      (List.range' i (len - i)).map (fun idx =>
        ⟨kid, key.sample_id, key.band_id, key.membership_id, (idx : Int) + off + 1,
          leWord8At file (pos + idx * 8)⟩) :=
  outerLoopGo_spec kid key file pos len off (len - i) i (le_refl _) hok

theorem outerLoopGo_keys (kid : Int) (key : Key) (file : List Nat) (pos len : Nat)
    (off : Int) :
    ∀ (fuel i : Nat) (r : Row), r ∈ (outerLoopGo kid key file pos len off fuel i).1 →
      r.key_id = kid := by
  intro fuel
  induction fuel with
  | zero => intro i r hr; exact absurd hr (by simp [outerLoopGo])
  | succ fuel ih =>
    intro i r hr
    by_cases hi : i < len
    · set cv := min (len - i) dataReadChunkValues with hcv
      by_cases g1 : cv * 8 ≥ 2 ^ 64
      · rw [show (outerLoopGo kid key file pos len off (fuel + 1) i).1 = [] from by
          simp only [outerLoopGo]; rw [← hcv]; rw [if_pos hi, if_pos g1]] at hr
        exact absurd hr (by simp)
      · by_cases g2 : i * 8 ≥ 2 ^ 64
        · rw [show (outerLoopGo kid key file pos len off (fuel + 1) i).1 = [] from by
            simp only [outerLoopGo]; rw [← hcv]; rw [if_pos hi, if_neg g1, if_pos g2]] at hr
          exact absurd hr (by simp)
        · by_cases g3 : pos + i * 8 ≥ 2 ^ 64
          · rw [show (outerLoopGo kid key file pos len off (fuel + 1) i).1 = [] from by
              simp only [outerLoopGo]; rw [← hcv]
              rw [if_pos hi, if_neg g1, if_neg g2, if_pos g3]] at hr
            exact absurd hr (by simp)
          · cases hread : readExactAt file (pos + i * 8) (cv * 8) with
            | none =>
              rw [show (outerLoopGo kid key file pos len off (fuel + 1) i).1 = [] from by
                simp only [outerLoopGo]; rw [← hcv]
                rw [if_pos hi, if_neg g1, if_neg g2, if_neg g3, hread]] at hr
              exact absurd hr (by simp)
            | some buf =>
              cases hinner : (innerRows kid key off buf i 0 cv).2 with
              | some e =>
                rw [show (outerLoopGo kid key file pos len off (fuel + 1) i).1 =
                    (innerRows kid key off buf i 0 cv).1 from by
                  simp only [outerLoopGo]; rw [← hcv]
                  rw [if_pos hi, if_neg g1, if_neg g2, if_neg g3, hread]
                  simp only [hinner]] at hr
                exact innerRows_keys kid key off buf i cv 0 r hr
              | none =>
                rw [show (outerLoopGo kid key file pos len off (fuel + 1) i).1 =
                    (innerRows kid key off buf i 0 cv).1 ++
                      (outerLoopGo kid key file pos len off fuel (i + cv)).1 from by
                  simp only [outerLoopGo]; rw [← hcv]
                  rw [if_pos hi, if_neg g1, if_neg g2, if_neg g3, hread]
                  simp only [hinner]] at hr
                rcases List.mem_append.mp hr with h | h
                · exact innerRows_keys kid key off buf i cv 0 r h
                · exact ih (i + cv) r h
    · rw [show (outerLoopGo kid key file pos len off (fuel + 1) i).1 = [] from by
        simp only [outerLoopGo]; rw [if_neg hi]] at hr
      exact absurd hr (by simp)

theorem outerLoop_keys (kid : Int) (key : Key) (file : List Nat) (pos len : Nat) (off : Int)
    (i : Nat) (r : Row) (hr : r ∈ (outerLoop kid key file pos len off i).1) :
    r.key_id = kid :=
  outerLoopGo_keys kid key file pos len off (len - i) i r hr

theorem appendKey_ok_spec (ds : Dataset) (kid : Int)
    (hok : (appendKey ds kid).2 = none) :
    ∃ ki key file, imLookup ds.key_index kid = some ki ∧ imLookup ds.key kid = some key ∧
      imLookup ds.period_data ki.period_type_id = some file ∧
      (appendKey ds kid).1 = (List.range ki.length).map (fun (idx : Nat) =>
        ⟨kid, key.sample_id, key.band_id, key.membership_id,
          (idx : Int) + ki.period_offset + 1, leWord8At file (ki.position + idx * 8)⟩) := by
  cases hki : imLookup ds.key_index kid with
  | none =>
    exfalso
    rw [show appendKey ds kid = ([], some (.keyIndexNotFound kid)) from by
      simp [appendKey, hki]] at hok
    exact Option.noConfusion hok
  | some ki =>
    cases hkey : imLookup ds.key kid with
    | none =>
      exfalso
      rw [show appendKey ds kid = ([], some (.keyNotFound kid)) from by
        simp [appendKey, hki, hkey]] at hok
      exact Option.noConfusion hok
    | some key =>
      cases hfile : imLookup ds.period_data ki.period_type_id with
      | none =>
        exfalso
        rw [show appendKey ds kid = ([], some (.periodTypeNotFound ki.period_type_id)) from by
          simp [appendKey, hki, hkey, hfile]] at hok
        exact Option.noConfusion hok
      | some file =>
        by_cases halign : ki.position % 8 ≠ 0
        · exfalso
          rw [show appendKey ds kid = ([], some (.misaligned kid ki.position)) from by
            simp [appendKey, hki, hkey, hfile, halign]] at hok
          exact Option.noConfusion hok
        · have hstep : appendKey ds kid =
              outerLoop kid key file ki.position ki.length ki.period_offset 0 := by
            simp [appendKey, hki, hkey, hfile, halign]
          rw [hstep] at hok
          refine ⟨ki, key, file, rfl, rfl, hfile, ?_⟩
          rw [hstep]
          have hspec := outerLoop_spec kid key file ki.position ki.length ki.period_offset 0 hok
          rw [hspec, Nat.sub_zero, ← List.range_eq_range']

theorem appendKey_keys (ds : Dataset) (kid : Int) :
    ∀ r ∈ (appendKey ds kid).1, r.key_id = kid := by
  intro r hr
  cases hki : imLookup ds.key_index kid with
  | none =>
    rw [show appendKey ds kid = ([], some (.keyIndexNotFound kid)) from by
      simp [appendKey, hki]] at hr
    exact absurd hr (by simp)
  | some ki =>
    cases hkey : imLookup ds.key kid with
    | none =>
      rw [show appendKey ds kid = ([], some (.keyNotFound kid)) from by
        simp [appendKey, hki, hkey]] at hr
      exact absurd hr (by simp)
    | some key =>
      cases hfile : imLookup ds.period_data ki.period_type_id with
      | none =>
        rw [show appendKey ds kid = ([], some (.periodTypeNotFound ki.period_type_id)) from by
          simp [appendKey, hki, hkey, hfile]] at hr
        exact absurd hr (by simp)
      | some file =>
        by_cases halign : ki.position % 8 ≠ 0
        · rw [show appendKey ds kid = ([], some (.misaligned kid ki.position)) from by
            simp [appendKey, hki, hkey, hfile, halign]] at hr
          exact absurd hr (by simp)
        · rw [show appendKey ds kid =
              outerLoop kid key file ki.position ki.length ki.period_offset 0 from by
            simp [appendKey, hki, hkey, hfile, halign]] at hr
          exact outerLoop_keys kid key file ki.position ki.length ki.period_offset 0 r hr

theorem go_ok (ds : Dataset) :
    ∀ kids : List Int, (appendSingleDataTable.go ds kids).2 = none →
      (∀ k ∈ kids, (appendKey ds k).2 = none) ∧
      (appendSingleDataTable.go ds kids).1 = kids.flatMap (fun k => (appendKey ds k).1) := by
  intro kids
  induction kids with
  | nil => intro _; exact ⟨by simp, rfl⟩
  | cons k rest ih =>
    intro hok
    cases he : (appendKey ds k).2 with
    | some e =>
      exfalso
      rw [show (appendSingleDataTable.go ds (k :: rest)).2 = some e from by
        simp [appendSingleDataTable.go, he]] at hok
      exact Option.noConfusion hok
    | none =>
      have hstep : appendSingleDataTable.go ds (k :: rest) =
          ((appendKey ds k).1 ++ (appendSingleDataTable.go ds rest).1,
            (appendSingleDataTable.go ds rest).2) := by
        simp [appendSingleDataTable.go, he]
      rw [hstep] at hok ⊢
      simp only [] at hok
      obtain ⟨h1, h2⟩ := ih hok
      refine ⟨?_, ?_⟩
      · intro k2 hk2
        rcases List.mem_cons.mp hk2 with h | h
        · rw [h]; exact he
        · exact h1 k2 h
      · rw [h2]
        rfl

theorem go_filter (ds : Dataset) (kid : Int) :
    ∀ kids : List Int, kids.Nodup → kid ∈ kids →
      ((kids.flatMap (fun k => (appendKey ds k).1)).filter (fun r => r.key_id = kid)) =
        (appendKey ds kid).1 := by
  intro kids
  induction kids with
  | nil => intro _ hmem; exact absurd hmem (by simp)
  | cons k rest ih =>
    intro hnd hmem
    rw [show (k :: rest).flatMap (fun k => (appendKey ds k).1) =
        (appendKey ds k).1 ++ rest.flatMap (fun k => (appendKey ds k).1) from rfl]
    rw [List.filter_append]
    rcases List.nodup_cons.mp hnd with ⟨hknotin, hndrest⟩
    by_cases hk : k = kid
    · subst hk
      have hall : (appendKey ds k).1.filter (fun r => r.key_id = k) = (appendKey ds k).1 :=
        List.filter_eq_self.mpr (fun r hr => by
          simp [appendKey_keys ds k r hr])
      have hnone : (rest.flatMap (fun k2 => (appendKey ds k2).1)).filter
          (fun r => r.key_id = k) = [] := by
        rw [List.filter_eq_nil_iff]
        intro r hr
        obtain ⟨k2, hk2, hrk2⟩ := List.mem_flatMap.mp hr
        have := appendKey_keys ds k2 r hrk2
        simp [this]
        intro hEq
        exact hknotin (hEq ▸ hk2)
      rw [hall, hnone, List.append_nil]
    · have hmemrest : kid ∈ rest := by
        rcases List.mem_cons.mp hmem with h | h
        · exact absurd h.symm hk
        · exact h
      have hnone : ((appendKey ds k).1.filter (fun r => r.key_id = kid)) = [] := by
        rw [List.filter_eq_nil_iff]
        intro r hr
        have := appendKey_keys ds k r hr
        simp [this]
        exact fun hEq => hk hEq
      rw [hnone, List.nil_append]
      exact ih hndrest hmemrest

/-- Claim C2: in a successful table append over a plan with distinct keys,
the rows written for each `key_id` carry `block_id = i + period_offset + 1`
for `i = 0 .. length-1` — exactly once each and in strictly increasing
order — and `value` is the little-endian 64-bit word at byte offset
`position + 8·i` of the key's BIN file. -/
theorem claim_C2 (ds : Dataset) (plan : DataTableWritePlan) (kid : Int)
    (hnd : plan.key_ids.Nodup) (hmem : kid ∈ plan.key_ids)
    (hok : (appendSingleDataTable ds plan).2 = none) :
    ∃ ki key file, imLookup ds.key_index kid = some ki ∧ imLookup ds.key kid = some key ∧
      imLookup ds.period_data ki.period_type_id = some file ∧
      ((appendSingleDataTable ds plan).1.filter (fun r => r.key_id = kid)) =
        (List.range ki.length).map (fun (i : Nat) =>
          ⟨kid, key.sample_id, key.band_id, key.membership_id,
            (i : Int) + ki.period_offset + 1, leWord8At file (ki.position + i * 8)⟩) ∧
      (((appendSingleDataTable ds plan).1.filter (fun r => r.key_id = kid)).map
          Row.block_id) =
        (List.range ki.length).map (fun (i : Nat) => (i : Int) + ki.period_offset + 1) ∧
      (((appendSingleDataTable ds plan).1.filter (fun r => r.key_id = kid)).map
          Row.block_id).Pairwise (· < ·) := by
  obtain ⟨hall, hrows⟩ := go_ok ds plan.key_ids hok
  have hkok := hall kid hmem
  obtain ⟨ki, key, file, h1, h2, h3, hkrows⟩ := appendKey_ok_spec ds kid hkok
  have hfil : ((appendSingleDataTable ds plan).1.filter (fun r => r.key_id = kid)) =
      (appendKey ds kid).1 := by
    rw [show (appendSingleDataTable ds plan).1 = (appendSingleDataTable.go ds plan.key_ids).1
        from rfl, hrows]
    exact go_filter ds kid plan.key_ids hnd hmem
  refine ⟨ki, key, file, h1, h2, h3, ?_, ?_, ?_⟩
  · rw [hfil, hkrows]
  · rw [hfil, hkrows, List.map_map]
    rfl
  · rw [hfil, hkrows, List.map_map]
    rw [show (Row.block_id ∘ fun (idx : Nat) =>
        (⟨kid, key.sample_id, key.band_id, key.membership_id,
          (idx : Int) + ki.period_offset + 1,
          leWord8At file (ki.position + idx * 8)⟩ : Row)) =
        (fun (idx : Nat) => (idx : Int) + ki.period_offset + 1) from rfl]
    refine List.Pairwise.map _ ?_ (List.pairwise_lt_range ki.length)
    intro a b hab
    omega

/-- Witness for C2 at the S1 fixture: key 7, two doubles `1.5`, `2.5`,
block ids `1, 2`. -/
theorem claim_C2_witness :
    ∃ ki key file, imLookup dsA.key_index 7 = some ki ∧ imLookup dsA.key 7 = some key ∧
      imLookup dsA.period_data ki.period_type_id = some file ∧
      ((appendSingleDataTable dsA planA).1.filter (fun r => r.key_id = 7)) =
        (List.range ki.length).map (fun (i : Nat) =>
          ⟨7, key.sample_id, key.band_id, key.membership_id,
            (i : Int) + ki.period_offset + 1, leWord8At file (ki.position + i * 8)⟩) ∧
      (((appendSingleDataTable dsA planA).1.filter (fun r => r.key_id = 7)).map
          Row.block_id) =
        (List.range ki.length).map (fun (i : Nat) => (i : Int) + ki.period_offset + 1) ∧
      (((appendSingleDataTable dsA planA).1.filter (fun r => r.key_id = 7)).map
          Row.block_id).Pairwise (· < ·) :=
  claim_C2 dsA planA 7 (by decide) (by decide) (by decide)

theorem appendKey_misaligned (ds : Dataset) (kid : Int) (ki : KeyIndex)
    (hki : imLookup ds.key_index kid = some ki)
    (hkey : (imLookup ds.key kid).isSome)
    (hfile : (imLookup ds.period_data ki.period_type_id).isSome)
    (halign : ki.position % 8 ≠ 0) :
    appendKey ds kid = ([], some (.misaligned kid ki.position)) := by
  obtain ⟨key, hkey'⟩ := Option.isSome_iff_exists.mp hkey
  obtain ⟨file, hfile'⟩ := Option.isSome_iff_exists.mp hfile
  simp [appendKey, hki, hkey', hfile', halign]

theorem go_error_mid (ds : Dataset) (kid : Int) (e : DataError)
    (he : appendKey ds kid = ([], some e)) :
    ∀ (pre post : List Int), (∀ k ∈ pre, (appendKey ds k).2 = none) →
      appendSingleDataTable.go ds (pre ++ kid :: post) =
        (pre.flatMap (fun k => (appendKey ds k).1), some e) := by
  intro pre
  induction pre with
  | nil =>
    intro post _
    rw [List.nil_append]
    rw [show appendSingleDataTable.go ds (kid :: post) =
        ((appendKey ds kid).1,
          some e) from by simp [appendSingleDataTable.go, he]]
    rw [he]
    rfl
  | cons k rest ih =>
    intro post hpre
    have hkok : (appendKey ds k).2 = none := hpre k (List.mem_cons_self k rest)
    have hstep : appendSingleDataTable.go ds ((k :: rest) ++ kid :: post) =
        ((appendKey ds k).1 ++ (appendSingleDataTable.go ds (rest ++ kid :: post)).1,
          (appendSingleDataTable.go ds (rest ++ kid :: post)).2) := by
      simp [appendSingleDataTable.go, hkok]
    rw [hstep, ih post (fun k2 hk2 => hpre k2 (List.mem_cons_of_mem _ hk2))]
    rfl

/-- Claim C5: |when a plan reaches a key whose `KeyIndex` has a byte
position off the 8-byte grid (earlier keys all succeeding and the key's
lookups resolving), the append fails with a `Misaligned` error naming that
`key_id` and byte position, and no row for that key is appended. -/
theorem claim_C5 (ds : Dataset) (plan : DataTableWritePlan) (kid : Int) (ki : KeyIndex)
    (pre post : List Int)
    (hsplit : plan.key_ids = pre ++ kid :: post)
    (hpre : ∀ k ∈ pre, (appendKey ds k).2 = none)
    (hnotin : kid ∉ pre)
    (hki : imLookup ds.key_index kid = some ki)
    (hkey : (imLookup ds.key kid).isSome)
    (hfile : (imLookup ds.period_data ki.period_type_id).isSome)
    (halign : ki.position % 8 ≠ 0) :
    (appendSingleDataTable ds plan).2 = some (.misaligned kid ki.position) ∧
    ∀ r ∈ (appendSingleDataTable ds plan).1, r.key_id ≠ kid := by
  have hmis := appendKey_misaligned ds kid ki hki hkey hfile halign
  have hgo := go_error_mid ds kid (.misaligned kid ki.position) hmis pre post hpre
  have htab : appendSingleDataTable ds plan = appendSingleDataTable.go ds plan.key_ids := rfl
  rw [htab, hsplit, hgo]
  refine ⟨rfl, ?_⟩
  intro r hr
  simp only [] at hr
  obtain ⟨k2, hk2, hrk2⟩ := List.mem_flatMap.mp hr
  have := appendKey_keys ds k2 r hrk2
  rw [this]
  intro hEq
  exact hnotin (hEq ▸ hk2)

/-- Witness for C5 at the S2-style fixture: key 5 succeeds, key 9 sits at
byte position 3 and aborts the table with `Misaligned 9 3`; no row of
key 9 is appended. -/
theorem claim_C5_witness :
    (appendSingleDataTable dsE planE).2 = some (.misaligned 9 3) ∧
    ∀ r ∈ (appendSingleDataTable dsE planE).1, r.key_id ≠ 9 :=
  claim_C5 dsE planE 9 ⟨9, 0, 1, 3, 0⟩ [5] [] (by decide) (by decide) (by decide)
    (by decide) (by decide) (by decide) (by decide)

/-! ## C9: parallel staging/merge equivalence -/

theorem firstMinIdx_lt : ∀ (l : List Nat), l ≠ [] → firstMinIdx l < l.length := by
  intro l
  induction l with
  | nil => intro h; exact absurd rfl h
  | cons x rest ih =>
    intro _
    by_cases hall : rest.all (fun y => x ≤ y)
    · rw [show firstMinIdx (x :: rest) = 0 from by simp [firstMinIdx, hall]]
      simp
    · rw [show firstMinIdx (x :: rest) = firstMinIdx rest + 1 from by
        conv_lhs => unfold firstMinIdx
        rw [if_neg hall]]
      have hne : rest ≠ [] := by
        intro hnil
        rw [hnil] at hall
        exact hall (by simp)
      have := ih hne
      simp only [List.length_cons]
      omega

theorem set_flatten_perm {α : Type} :
    ∀ (bs : List (List α)) (j : Nat) (p : α), j < bs.length →
      ((bs.set j ((bs.getD j []) ++ [p])).flatten).Perm (p :: bs.flatten) := by
  intro bs
  induction bs with
  | nil => intro j p h; simp at h
  | cons b tail ih =>
    intro j p hj
    cases j with
    | zero =>
      rw [show (b :: tail).getD 0 [] = b from rfl,
        show (b :: tail).set 0 (b ++ [p]) = (b ++ [p]) :: tail from rfl]
      rw [show ((b ++ [p]) :: tail).flatten = (b ++ [p]) ++ tail.flatten from rfl]
      rw [List.append_assoc]
      rw [show ([p] ++ tail.flatten) = p :: tail.flatten from rfl]
      exact List.perm_middle
    | succ j =>
      rw [show (b :: tail).getD (j + 1) [] = tail.getD j [] from rfl,
        show (b :: tail).set (j + 1) (tail.getD j [] ++ [p]) =
          b :: tail.set j (tail.getD j [] ++ [p]) from rfl]
      rw [show (b :: tail.set j (tail.getD j [] ++ [p])).flatten =
          b ++ (tail.set j (tail.getD j [] ++ [p])).flatten from rfl]
      have hperm := ih j p (by simp at hj; omega)
      have h2 : (b ++ (tail.set j (tail.getD j [] ++ [p])).flatten).Perm
          (b ++ (p :: tail.flatten)) := hperm.append_left b
      have h3 : (b ++ (p :: tail.flatten)).Perm (p :: (b ++ tail.flatten)) :=
        List.perm_middle
      exact h2.trans h3

theorem distFold_perm :
    ∀ (plans : List DataTableWritePlan) (bs : List (List DataTableWritePlan))
      (ls : List Nat), bs.length = ls.length → 1 ≤ ls.length →
      ((plans.foldl distStep (bs, ls)).1).flatten.Perm (bs.flatten ++ plans) := by
  intro plans
  induction plans with
  | nil =>
    intro bs ls _ _
    simp
  | cons p rest ih =>
    intro bs ls hlen hpos
    have hlsne : ls ≠ [] := by
      intro h
      rw [h] at hpos
      simp at hpos
    have hj : firstMinIdx ls < ls.length := firstMinIdx_lt ls hlsne
    have hjb : firstMinIdx ls < bs.length := by omega
    have hstep : (p :: rest).foldl distStep (bs, ls) =
        rest.foldl distStep (distStep (bs, ls) p) := rfl
    rw [hstep]
    have hd : distStep (bs, ls) p =
        (bs.set (firstMinIdx ls) ((bs.getD (firstMinIdx ls) []) ++ [p]),
          ls.set (firstMinIdx ls) (satAdd128 (ls.getD (firstMinIdx ls) 0) p.estimated_values)) :=
      rfl
    rw [hd]
    have hlen2 : (bs.set (firstMinIdx ls) ((bs.getD (firstMinIdx ls) []) ++ [p])).length =
        (ls.set (firstMinIdx ls)
          (satAdd128 (ls.getD (firstMinIdx ls) 0) p.estimated_values)).length := by
      simp [hlen]
    have hpos2 : 1 ≤ (ls.set (firstMinIdx ls)
        (satAdd128 (ls.getD (firstMinIdx ls) 0) p.estimated_values)).length := by
      simp
      omega
    have hrec := ih _ _ hlen2 hpos2
    have hbs := set_flatten_perm bs (firstMinIdx ls) p hjb
    exact hrec.trans ((hbs.append_right rest).trans List.perm_middle.symm)

theorem flatten_filter_nonempty {α : Type} :
    ∀ (bs : List (List α)), ((bs.filter (fun b => ¬ b.isEmpty)).flatten) = bs.flatten := by
  intro bs
  induction bs with
  | nil => rfl
  | cons b tail ih =>
    by_cases hb : b.isEmpty
    · have hbe : b = [] := List.isEmpty_iff.mp hb
      rw [List.filter_cons]
      rw [if_neg (by simp [hb])]
      rw [ih, hbe]
      rfl
    · rw [List.filter_cons]
      rw [if_pos (by simp [hb])]
      rw [show (b :: (tail.filter (fun b => ¬ b.isEmpty))).flatten =
          b ++ (tail.filter (fun b => ¬ b.isEmpty)).flatten from rfl, ih]
      rfl

theorem flatten_replicate_nil {α : Type} :
    ∀ (w : Nat), (List.replicate w ([] : List α)).flatten = [] := by
  intro w
  induction w with
  | zero => rfl
  | succ w ih => simp [ih]

theorem distribute_perm (plans : List DataTableWritePlan) (W : Nat) (hW : 1 ≤ W) :
    ((distribute_data_table_plans plans W).flatten).Perm plans := by
  unfold distribute_data_table_plans
  rw [flatten_filter_nonempty]
  have := distFold_perm plans (List.replicate W []) (List.replicate W 0)
    (by simp) (by simp; omega)
  rw [flatten_replicate_nil] at this
  simpa using this

/-- Claim C9: for every worker count `W` in `{1, …, #tables}`, under the
claim's assumption that the run succeeds, the parallel staging/merge write
phase produces, for every `data.*` table, the same multiset of
`(key_id, sample_id, band_id, membership_id, block_id, value)` rows as the
sequential (`W = 1`) run over the same catalog and BIN files. -/
theorem claim_C9 (ds : Dataset) (plans : List DataTableWritePlan) (W : Nat)
    (hW1 : 1 ≤ W) (_hW2 : W ≤ max 1 plans.length)
    (_hok : ∀ p ∈ plans, (appendSingleDataTable ds p).2 = none) (t : String) :
    (rowsForTable (runParallel ds plans W) t).Perm
      (rowsForTable (runSequential ds plans) t) := by
  have htables : (runParallel ds plans W).Perm (runSequential ds plans) := by
    unfold runParallel merge_staged_data_shards
    rw [show ((distribute_data_table_plans plans W).map (runWorker ds)).flatMap id =
        ((distribute_data_table_plans plans W).map (runWorker ds)).flatten from by
      simp [List.flatMap_id]]
    rw [show (distribute_data_table_plans plans W).map (runWorker ds) =
        (distribute_data_table_plans plans W).map
          (List.map (fun p => (p.table_name, appendSingleDataTable ds p))) from rfl]
    rw [← List.map_flatten]
    exact (distribute_perm plans W hW1).map _
  unfold rowsForTable
  exact List.Perm.flatMap_right _ (htables.filter _)

/-- Witness for C9: two plans over the S1 dataset written with `W = 2`
workers yield the same rows for the S1 table as the sequential run. -/
theorem claim_C9_witness :
    (rowsForTable (runParallel dsA [planA, planEmpty] 2)
        "LT__Interval__Generators__Gen_Cap").Perm
      (rowsForTable (runSequential dsA [planA, planEmpty])
        "LT__Interval__Generators__Gen_Cap") :=
  claim_C9 dsA [planA, planEmpty] 2 (by decide) (by decide) (by decide)
    "LT__Interval__Generators__Gen_Cap"

end P2D
